import Mathlib

/-!
Verification of the measure-classification grammar
(nemo_text_processing/text_normalization/taggers/measure.py).

The pynini rules of `MeasureFst.__init__` are embedded shallowly as
nondeterministic parser-transducers over character lists: a rule maps an
input string to the list of partial parses, each parse being the produced
output together with the remaining input.  Rule concatenation, union,
bounded closure, cross, and insertion mirror the pynini combinators used
by the source.  The external collaborators declared out of scope by the
spec - the cardinal and decimal numeric grammars, the unit lexicon file,
and the singular-to-plural map - are parameters of the construction.
-/

namespace NemoMeasure

/-- Surface text and annotation text, as lists of characters. -/
abbrev Str := List Char

/-- Coerce a string literal to its character list. -/
def str (s : String) : Str := s.data

/-- A rule fragment: maps an input to the list of partial parses, each a
pair of produced output and remaining input. -/
def Rule := Str → List (Str × Str)

/-- Empty rule: consumes nothing, produces nothing (pynini epsilon). -/
def epsT : Rule := fun s => [([], s)]

/-- pynutil.insert: consumes nothing, produces the given output. -/
def insertT (o : Str) : Rule := fun s => [(o, s)]

/-- pynini.cross: consumes the literal `m`, produces the literal `o`. -/
def crossT (m o : Str) : Rule := fun s =>
  if m.isPrefixOf s then [(o, s.drop m.length)] else []

/-- Rule concatenation (pynini `+`): all ways to split the work. -/
def seqT (a b : Rule) : Rule := fun s =>
  (a s).flatMap (fun p => (b p.2).map (fun q => (p.1 ++ q.1, q.2)))

/-- Rule union (pynini `|`), keeping branch order. -/
def unionT (a b : Rule) : Rule := fun s => a s ++ b s

/-- pynini.closure(a, 0, 1): at most one occurrence. -/
def optT (a : Rule) : Rule := unionT a epsT

/-- Lift an externally supplied grammar (a map from accepted surface spans
to their word-sequence outputs) to a rule that may consume any prefix the
grammar accepts. -/
def liftG (f : Str → List Str) : Rule := fun s =>
  (List.range (s.length + 1)).flatMap (fun k =>
    (f (s.take k)).map (fun o => (o, s.drop k)))

/-- Postcompose a rule with a rewrite of its output. -/
def mapOut (g : Str → Str) (a : Rule) : Rule := fun s =>
  (a s).map (fun p => (g p.1, p.2))

/-- Modelled from the spec: the whitespace alphabet used by the shared
graph_utils primitives (graph_utils.py is not part of the sources under
verification). -/
def isSpaceChar (c : Char) : Bool :=
  c = ' ' || c = '\t' || c = '\n' || c = '\r' || c = ' '

/-- Length of the leading whitespace run of a string. -/
def wsCount : Str → Nat
  | [] => 0
  | c :: cs => if isSpaceChar c then wsCount cs + 1 else 0

/-- Modelled from the spec: graph_utils.delete_space deletes an arbitrary
run of zero or more whitespace characters and emits nothing. -/
def delete_space : Rule := fun s =>
  (List.range (wsCount s + 1)).map (fun k => (([] : Str), s.drop k))

/-- Length of the leading alphabetic run of a string. -/
def alphaCount : Str → Nat
  | [] => 0
  | c :: cs => if c.isAlpha then alphaCount cs + 1 else 0

/-- Modelled from the spec: pynini.closure(NEMO_ALPHA, 1), one or more
alphabetic characters, emitted verbatim (graph_utils.NEMO_ALPHA is not
part of the sources under verification). -/
def alphaPlus : Rule := fun s =>
  (List.range (alphaCount s)).map (fun k => (s.take (k + 1), s.drop (k + 1)))

/-- Modelled from the spec: graph_utils.NEMO_NON_BREAKING_SPACE, the
designated joined representation for spaces inside unit names. -/
def nbsp : Char := ' '

/-- Rewrite of plain spaces to the non-breaking space. -/
def spaceToNbsp (c : Char) : Char := if c = ' ' then nbsp else c

/-- Output-side space conversion applied to a whole string. -/
def cspStr (o : Str) : Str := o.map spaceToNbsp

/-- Modelled from the spec: graph_utils.convert_space rewrites the spaces
of a rule's output to non-breaking spaces, so that multi-word unit names
travel as one token. -/
def convert_space (a : Rule) : Rule := mapOut cspStr a

/-- External collaborators of MeasureFst, consumed through the stable
interfaces of the spec: the cardinal grammar (`cardinal.graph` plus, in
non-deterministic mode, `cardinal.range_graph`), the decimal grammar
(`decimal.final_graph_wo_negative`), the unit lexicon file
(data/measurements.tsv), and the singular-to-plural rewrite
(graph_utils.SINGULAR_TO_PLURAL).  Each grammar maps a candidate surface
span to the list of word-sequence outputs it produces for that span. -/
structure Collab where
  cardinal_graph : Str → List Str
  range_graph : Str → List Str
  decimal_final_wo_negative : Str → List Str
  measurements : Str → List Str
  singularToPlural : Str → Str

/-- The effective cardinal grammar: `cardinal.graph`, extended with
`cardinal.range_graph` when deterministic is False (source lines 52-55). -/
def cardinalGraphEff (env : Collab) (det : Bool) : Str → List Str :=
  fun s => env.cardinal_graph s ++ (if det then [] else env.range_graph s)

/-- graph_unit (source lines 57 and 59): the unit lexicon with output
spaces converted. -/
def graph_unit (env : Collab) : Rule := convert_space (liftG env.measurements)

/-- graph_unit_plural (source line 58): the unit lexicon composed with the
singular-to-plural rewrite, then space-converted. -/
def graph_unit_plural (env : Collab) : Rule :=
  convert_space (mapOut env.singularToPlural (liftG env.measurements))

/-- The output emitted for a consumed negative marker. -/
def negTrue : Str := str "negative: " ++ str "\"true\" "

/-- optional_graph_negative (source line 60). -/
def optional_graph_negative : Rule :=
  optT (seqT (insertT (str "negative: ")) (crossT (str "-") (str "\"true\" ")))

/-- graph_unit2 (source line 62): a division marker rewritten to the word
per, optional whitespace deleted, a non-breaking space inserted, then a
singular lexicon lookup. -/
def graph_unit2 (env : Collab) : Rule :=
  seqT (crossT (str "/") (str "per"))
    (seqT delete_space (seqT (insertT [nbsp]) (graph_unit env)))

/-- optional_graph_unit2 (source lines 64-66). -/
def optional_graph_unit2 (env : Collab) : Rule :=
  optT (seqT delete_space (seqT (insertT [nbsp]) (graph_unit2 env)))

/-- The inner alternation of unit_plural (source line 70). -/
def unit_plural_core (env : Collab) : Rule :=
  unionT (seqT (graph_unit_plural env) (optional_graph_unit2 env)) (graph_unit2 env)

/-- unit_plural (source lines 68-72). -/
def unit_plural (env : Collab) : Rule :=
  seqT (insertT (str "units: \"")) (seqT (unit_plural_core env) (insertT (str "\"")))

/-- The inner alternation of unit_singular (source line 75). -/
def unit_singular_core (env : Collab) : Rule :=
  unionT (seqT (graph_unit env) (optional_graph_unit2 env)) (graph_unit2 env)

/-- unit_singular (source lines 74-76). -/
def unit_singular (env : Collab) : Rule :=
  seqT (insertT (str "units: \"")) (seqT (unit_singular_core env) (insertT (str "\"")))

/-- The domain restriction (NEMO_SIGMA - "1") @ g of source line 91: the
grammar g with the literal string 1 removed from its input domain. -/
def minusOne (f : Str → List Str) : Str → List Str :=
  fun s => if s = str "1" then [] else f s

/-- subgraph_decimal (source lines 78-85). -/
def subgraph_decimal (env : Collab) : Rule :=
  seqT (insertT (str "decimal \x7b "))
    (seqT optional_graph_negative
      (seqT (liftG env.decimal_final_wo_negative)
        (seqT delete_space
          (seqT (insertT (str " \x7d ")) (unit_plural env)))))

/-- The plural alternative of subgraph_cardinal (source lines 87-96). -/
def subgraph_cardinal_plural (env : Collab) (det : Bool) : Rule :=
  seqT (insertT (str "cardinal \x7b "))
    (seqT optional_graph_negative
      (seqT (insertT (str "integer: \""))
        (seqT (liftG (minusOne (cardinalGraphEff env det)))
          (seqT delete_space
            (seqT (insertT (str "\""))
              (seqT (insertT (str " \x7d ")) (unit_plural env)))))))

/-- The singular alternative of subgraph_cardinal (source lines 98-107). -/
def subgraph_cardinal_singular (env : Collab) : Rule :=
  seqT (insertT (str "cardinal \x7b "))
    (seqT optional_graph_negative
      (seqT (insertT (str "integer: \""))
        (seqT (crossT (str "1") (str "one"))
          (seqT delete_space
            (seqT (insertT (str "\""))
              (seqT (insertT (str " \x7d ")) (unit_singular env)))))))

/-- subgraph_cardinal (source lines 87-107): plural alternative first,
then the literal-1 singular alternative. -/
def subgraph_cardinal (env : Collab) (det : Bool) : Rule :=
  unionT (subgraph_cardinal_plural env det) (subgraph_cardinal_singular env)

/-- cardinal_dash_alpha (source lines 109-116). -/
def cardinal_dash_alpha (env : Collab) (det : Bool) : Rule :=
  seqT (insertT (str "cardinal \x7b integer: \""))
    (seqT (liftG (cardinalGraphEff env det))
      (seqT (crossT (str "-") [])
        (seqT (insertT (str "\" \x7d units: \""))
          (seqT alphaPlus (insertT (str "\""))))))

/-- alpha_dash_cardinal (source lines 118-126). -/
def alpha_dash_cardinal (env : Collab) (det : Bool) : Rule :=
  seqT (insertT (str "units: \""))
    (seqT alphaPlus
      (seqT (crossT (str "-") [])
        (seqT (insertT (str "\""))
          (seqT (insertT (str " cardinal \x7b integer: \""))
            (seqT (liftG (cardinalGraphEff env det))
              (insertT (str "\" \x7d preserve_order: true")))))))

/-- decimal_dash_alpha (source lines 128-135). -/
def decimal_dash_alpha (env : Collab) : Rule :=
  seqT (insertT (str "decimal \x7b "))
    (seqT (liftG env.decimal_final_wo_negative)
      (seqT (crossT (str "-") [])
        (seqT (insertT (str " \x7d units: \""))
          (seqT alphaPlus (insertT (str "\""))))))

/-- alpha_dash_decimal (source lines 137-145). -/
def alpha_dash_decimal (env : Collab) : Rule :=
  seqT (insertT (str "units: \""))
    (seqT alphaPlus
      (seqT (crossT (str "-") [])
        (seqT (insertT (str "\""))
          (seqT (insertT (str " decimal \x7b "))
            (seqT (liftG env.decimal_final_wo_negative)
              (insertT (str " \x7d preserve_order: true")))))))

/-- Modelled from the spec: the outer token envelope applied by
GraphFst.add_tokens (graph_utils.py is not part of the sources under
verification); it wraps the annotation in the measure token per the
output syntax of the spec. -/
def add_tokens (a : Rule) : Rule :=
  seqT (insertT (str "measure \x7b ")) (seqT a (insertT (str " \x7d")))

/-- final_graph (source lines 147-155): the union of the six branches in
source order, wrapped in the outer token envelope. -/
def final_graph (env : Collab) (det : Bool) : Rule :=
  add_tokens
    (unionT (subgraph_decimal env)
      (unionT (subgraph_cardinal env det)
        (unionT (cardinal_dash_alpha env det)
          (unionT (alpha_dash_cardinal env det)
            (unionT (decimal_dash_alpha env) (alpha_dash_decimal env))))))

/-- Matching an input against a rule: the outputs of the parses that
consume the whole input. -/
def fullMatches (a : Rule) (s : Str) : List Str :=
  (a s).filterMap (fun p => if p.2 = [] then some p.1 else none)

/-- Deterministic-mode matching: the single highest-priority candidate,
ties between branches broken by branch order. -/
def matchDet (env : Collab) (s : Str) : Option Str :=
  (fullMatches (final_graph env true) s).head?

/-- Output shape of the cardinal block of the plain cardinal branches. -/
def cardinalBlock (negO w : Str) : Str :=
  str "cardinal \x7b " ++ negO ++ str "integer: \"" ++ w ++ str "\"" ++ str " \x7d "

/-- Output shape of the decimal block of the plain decimal branch. -/
def decimalBlock (negO w : Str) : Str :=
  str "decimal \x7b " ++ negO ++ w ++ str " \x7d "

/-- Output shape of the units field. -/
def unitsField (x : Str) : Str := str "units: \"" ++ x ++ str "\""

/-- Output shape of a per-unit suffix produced by graph_unit2. -/
def perOut (x : Str) : Str := str "per" ++ [nbsp] ++ x

/-- Output shape of the number-dash-unit cardinal branch. -/
def cardinalDashOut (w a : Str) : Str :=
  str "cardinal \x7b integer: \"" ++ w ++ str "\" \x7d units: \"" ++ a ++ str "\""

/-- Output shape of the unit-dash-number cardinal branch. -/
def alphaDashCardinalOut (a w : Str) : Str :=
  str "units: \"" ++ a ++ str "\"" ++ str " cardinal \x7b integer: \"" ++ w
    ++ str "\" \x7d preserve_order: true"

/-- Output shape of the number-dash-unit decimal branch. -/
def decimalDashOut (w a : Str) : Str :=
  str "decimal \x7b " ++ w ++ str " \x7d units: \"" ++ a ++ str "\""

/-- Output shape of the unit-dash-number decimal branch. -/
def alphaDashDecimalOut (a w : Str) : Str :=
  str "units: \"" ++ a ++ str "\"" ++ str " decimal \x7b " ++ w
    ++ str " \x7d preserve_order: true"

/-- Sample cardinal grammar used for concrete evaluation: the digit spans
needed by the examples of the spec. -/
def sampleCardinal : Str → List Str := fun s =>
  if s = str "12" then [str "twelve"]
  else if s = str "5" then [str "five"]
  else if s = str "1" then [str "one"]
  else []

/-- Sample decimal grammar used for concrete evaluation. -/
def sampleDecimal : Str → List Str := fun s =>
  if s = str ".5" then [str "fractional_part: \"five\""] else []

/-- Sample unit lexicon used for concrete evaluation. -/
def sampleUnits : Str → List Str := fun s =>
  if s = str "kg" then [str "kilogram"]
  else if s = str "hour" then [str "hour"]
  else []

/-- Sample singular-to-plural rewrite used for concrete evaluation. -/
def samplePlural : Str → Str := fun s =>
  if s = str "kilogram" then str "kilograms"
  else if s = str "hour" then str "hours"
  else s

/-- Sample collaborator bundle used for concrete evaluation. -/
def sampleEnv : Collab where
  cardinal_graph := sampleCardinal
  range_graph := fun _ => []
  decimal_final_wo_negative := sampleDecimal
  measurements := sampleUnits
  singularToPlural := samplePlural

/-- Output shape of the outer token envelope. -/
def measureTok (x : Str) : Str := str "measure \x7b " ++ x ++ str " \x7d"

/-- A cardinal grammar pinned to a single span, used to instantiate
universally quantified theorems at concrete inputs. -/
def onlyCard12 : Str → List Str := fun s =>
  if s = str "12" then [str "twelve"] else []

/-- A unit lexicon pinned to a single entry, used to instantiate
universally quantified theorems at concrete inputs. -/
def onlyUnitKg : Str → List Str := fun s =>
  if s = str "kg" then [str "kilogram"] else []

/-- A collaborator bundle whose grammars accept exactly one span each. -/
def pinnedEnv : Collab where
  cardinal_graph := onlyCard12
  range_graph := fun _ => []
  decimal_final_wo_negative := sampleDecimal
  measurements := onlyUnitKg
  singularToPlural := samplePlural

theorem mem_epsT {o r s : Str} : (o, r) ∈ epsT s ↔ o = [] ∧ r = s := by
  simp [epsT]

theorem mem_insertT {o r x s : Str} : (o, r) ∈ insertT x s ↔ o = x ∧ r = s := by
  simp [insertT]

theorem isPrefixOf_exists {m s : Str} (hp : m.isPrefixOf s = true) : ∃ t, s = m ++ t := by
  induction m generalizing s with
  | nil => exact ⟨s, rfl⟩
  | cons c cs ih =>
    cases s with
    | nil => simp [List.isPrefixOf] at hp
    | cons d ds =>
      simp only [List.isPrefixOf, Bool.and_eq_true, beq_iff_eq] at hp
      obtain ⟨rfl, h2⟩ := hp
      obtain ⟨t, rfl⟩ := ih h2
      exact ⟨t, rfl⟩

theorem isPrefixOf_append {m t : Str} : m.isPrefixOf (m ++ t) = true := by
  induction m with
  | nil => simp [List.isPrefixOf]
  | cons c cs ih => simp [List.isPrefixOf, ih]

theorem mem_crossT {o r m x s : Str} :
    (o, r) ∈ crossT m x s ↔ o = x ∧ s = m ++ r := by
  constructor
  · intro h
    unfold crossT at h
    split at h
    · rename_i hp
      simp at h
      obtain ⟨h1, h2⟩ := h
      obtain ⟨t, ht⟩ := isPrefixOf_exists hp
      refine ⟨h1, ?_⟩
      subst h2 ht
      simp
    · simp at h
  · rintro ⟨h1, h2⟩
    subst h1 h2
    unfold crossT
    simp [isPrefixOf_append, List.drop_left]

theorem mem_seqT {a b : Rule} {o r s : Str} :
    (o, r) ∈ seqT a b s ↔ ∃ o₁ r₁ o₂, (o₁, r₁) ∈ a s ∧ (o₂, r) ∈ b r₁ ∧ o = o₁ ++ o₂ := by
  simp only [seqT, List.mem_flatMap, List.mem_map, Prod.ext_iff]
  constructor
  · rintro ⟨⟨o₁, r₁⟩, h1, ⟨o₂, r₂⟩, h2, ho, hr⟩
    simp only at h2 ho hr
    subst hr
    exact ⟨o₁, r₁, o₂, h1, h2, ho.symm⟩
  · rintro ⟨o₁, r₁, o₂, h1, h2, rfl⟩
    exact ⟨(o₁, r₁), h1, (o₂, r), h2, rfl, rfl⟩

theorem mem_unionT {a b : Rule} {o r s : Str} :
    (o, r) ∈ unionT a b s ↔ (o, r) ∈ a s ∨ (o, r) ∈ b s := by
  simp [unionT]

theorem mem_optT {a : Rule} {o r s : Str} :
    (o, r) ∈ optT a s ↔ (o, r) ∈ a s ∨ (o = [] ∧ r = s) := by
  simp [optT, mem_unionT, mem_epsT]

theorem mem_liftG {f : Str → List Str} {o r s : Str} :
    (o, r) ∈ liftG f s ↔ ∃ pre, s = pre ++ r ∧ o ∈ f pre := by
  simp only [liftG, List.mem_flatMap, List.mem_map, List.mem_range, Prod.ext_iff]
  constructor
  · rintro ⟨k, hk, o', ho', h1, h2⟩
    refine ⟨s.take k, ?_, ?_⟩
    · rw [← h2]
      exact (List.take_append_drop k s).symm
    · rw [← h1]
      exact ho'
  · rintro ⟨pre, rfl, ho⟩
    refine ⟨pre.length, ?_, o, ?_, rfl, ?_⟩
    · have := List.length_append pre r
      omega
    · simpa [List.take_left] using ho
    · simp [List.drop_left]

theorem mem_mapOut {g : Str → Str} {a : Rule} {o r s : Str} :
    (o, r) ∈ mapOut g a s ↔ ∃ o', (o', r) ∈ a s ∧ o = g o' := by
  simp only [mapOut, List.mem_map, Prod.ext_iff]
  constructor
  · rintro ⟨⟨o', r'⟩, h1, h2, h3⟩
    simp only at h2 h3
    subst h3
    exact ⟨o', h1, h2.symm⟩
  · rintro ⟨o', h1, rfl⟩
    exact ⟨(o', r), h1, rfl, rfl⟩

theorem mem_fullMatches {a : Rule} {o s : Str} :
    o ∈ fullMatches a s ↔ (o, []) ∈ a s := by
  simp only [fullMatches, List.mem_filterMap]
  constructor
  · rintro ⟨⟨o', r'⟩, h1, h2⟩
    split at h2
    · rename_i hr
      obtain rfl := Option.some.inj h2
      have hr' : r' = [] := hr
      subst hr'
      exact h1
    · exact absurd h2 (by simp)
  · intro h
    exact ⟨(o, []), h, by simp⟩

theorem wsCount_take {s : Str} : ∀ {k : Nat}, k ≤ wsCount s →
    ∀ c ∈ s.take k, isSpaceChar c := by
  induction s with
  | nil => intro k _ c hc; simp at hc
  | cons a as ih =>
    intro k hk c hc
    match k with
    | 0 => simp at hc
    | k + 1 =>
      unfold wsCount at hk
      by_cases ha : isSpaceChar a
      · rw [if_pos ha] at hk
        simp only [List.take_succ_cons, List.mem_cons] at hc
        rcases hc with rfl | hc
        · exact ha
        · exact ih (Nat.le_of_succ_le_succ hk) c hc
      · rw [if_neg ha] at hk
        omega

theorem wsCount_append {w : Str} (r : Str) (h : ∀ c ∈ w, isSpaceChar c) :
    w.length ≤ wsCount (w ++ r) := by
  induction w with
  | nil => simp
  | cons a as ih =>
    have ha : isSpaceChar a := h a (by simp)
    have has : ∀ c ∈ as, isSpaceChar c := fun c hc => h c (by simp [hc])
    simp only [List.cons_append, List.length_cons]
    unfold wsCount
    rw [if_pos ha]
    exact Nat.succ_le_succ (ih has)

theorem mem_delete_space {o r s : Str} :
    (o, r) ∈ delete_space s ↔ o = [] ∧ ∃ w, (∀ c ∈ w, isSpaceChar c) ∧ s = w ++ r := by
  simp only [delete_space, List.mem_map, List.mem_range, Prod.ext_iff]
  constructor
  · rintro ⟨k, hk, h1, h2⟩
    refine ⟨h1.symm, s.take k, ?_, ?_⟩
    · exact wsCount_take (Nat.lt_succ_iff.mp hk)
    · rw [← h2]
      exact (List.take_append_drop k s).symm
  · rintro ⟨rfl, w, hw, rfl⟩
    exact ⟨w.length, Nat.lt_succ_of_le (wsCount_append r hw), rfl, List.drop_left w r⟩

theorem alphaCount_take {s : Str} : ∀ {k : Nat}, k ≤ alphaCount s →
    ∀ c ∈ s.take k, c.isAlpha := by
  induction s with
  | nil => intro k _ c hc; simp at hc
  | cons a as ih =>
    intro k hk c hc
    match k with
    | 0 => simp at hc
    | k + 1 =>
      unfold alphaCount at hk
      by_cases ha : a.isAlpha
      · rw [if_pos ha] at hk
        simp only [List.take_succ_cons, List.mem_cons] at hc
        rcases hc with rfl | hc
        · exact ha
        · exact ih (Nat.le_of_succ_le_succ hk) c hc
      · rw [if_neg ha] at hk
        omega

theorem alphaCount_le_length (s : Str) : alphaCount s ≤ s.length := by
  induction s with
  | nil => simp [alphaCount]
  | cons a as ih =>
    unfold alphaCount
    by_cases ha : a.isAlpha
    · rw [if_pos ha]
      simpa using ih
    · rw [if_neg ha]
      simp

theorem alphaCount_append {a : Str} (r : Str) (h : ∀ c ∈ a, c.isAlpha) :
    a.length ≤ alphaCount (a ++ r) := by
  induction a with
  | nil => simp
  | cons x xs ih =>
    have hx : x.isAlpha := h x (by simp)
    have hxs : ∀ c ∈ xs, c.isAlpha := fun c hc => h c (by simp [hc])
    simp only [List.cons_append, List.length_cons]
    unfold alphaCount
    rw [if_pos hx]
    exact Nat.succ_le_succ (ih hxs)

theorem mem_alphaPlus {o r s : Str} :
    (o, r) ∈ alphaPlus s ↔ o ≠ [] ∧ (∀ c ∈ o, c.isAlpha) ∧ s = o ++ r := by
  simp only [alphaPlus, List.mem_map, List.mem_range, Prod.ext_iff]
  constructor
  · rintro ⟨k, hk, h1, h2⟩
    have hk1 : k + 1 ≤ alphaCount s := hk
    have hlen : k + 1 ≤ s.length := le_trans hk1 (alphaCount_le_length s)
    refine ⟨?_, ?_, ?_⟩
    · rw [← h1]
      intro hnil
      have hlen0 : (s.take (k + 1)).length = 0 := by rw [hnil]; rfl
      rw [List.length_take] at hlen0
      omega
    · rw [← h1]
      exact alphaCount_take hk1
    · rw [← h1, ← h2]
      exact (List.take_append_drop (k + 1) s).symm
  · rintro ⟨hne, halpha, rfl⟩
    have hlen : 1 ≤ o.length := by
      cases o with
      | nil => exact absurd rfl hne
      | cons x xs => simp
    refine ⟨o.length - 1, ?_, ?_, ?_⟩
    · have := alphaCount_append r halpha
      omega
    · have : o.length - 1 + 1 = o.length := by omega
      rw [this, List.take_left]
    · have : o.length - 1 + 1 = o.length := by omega
      rw [this, List.drop_left]

theorem seqT_intro {a b : Rule} {o₁ r₁ o₂ r₂ s : Str} (h1 : (o₁, r₁) ∈ a s)
    (h2 : (o₂, r₂) ∈ b r₁) : (o₁ ++ o₂, r₂) ∈ seqT a b s :=
  mem_seqT.mpr ⟨o₁, r₁, o₂, h1, h2, rfl⟩

theorem insertT_self {x s : Str} : (x, s) ∈ insertT x s := by
  simp [insertT]

theorem epsT_self {s : Str} : (([] : Str), s) ∈ epsT s := by
  simp [epsT]

theorem crossT_self {m x r : Str} : (x, r) ∈ crossT m x (m ++ r) :=
  mem_crossT.mpr ⟨rfl, rfl⟩

theorem liftG_intro {f : Str → List Str} {o pre r : Str} (h : o ∈ f pre) :
    (o, r) ∈ liftG f (pre ++ r) :=
  mem_liftG.mpr ⟨pre, rfl, h⟩

theorem delete_space_nil {s : Str} : (([] : Str), s) ∈ delete_space s :=
  mem_delete_space.mpr ⟨rfl, [], by simp, rfl⟩

theorem delete_space_intro {w r : Str} (h : ∀ c ∈ w, isSpaceChar c) :
    (([] : Str), r) ∈ delete_space (w ++ r) :=
  mem_delete_space.mpr ⟨rfl, w, h, rfl⟩

theorem alphaPlus_intro {a r : Str} (h1 : a ≠ []) (h2 : ∀ c ∈ a, c.isAlpha) :
    (a, r) ∈ alphaPlus (a ++ r) :=
  mem_alphaPlus.mpr ⟨h1, h2, rfl⟩

theorem unionT_inl {a b : Rule} {o r s : Str} (h : (o, r) ∈ a s) :
    (o, r) ∈ unionT a b s :=
  mem_unionT.mpr (Or.inl h)

theorem unionT_inr {a b : Rule} {o r s : Str} (h : (o, r) ∈ b s) :
    (o, r) ∈ unionT a b s :=
  mem_unionT.mpr (Or.inr h)

theorem optT_take {a : Rule} {o r s : Str} (h : (o, r) ∈ a s) : (o, r) ∈ optT a s :=
  unionT_inl h

theorem optT_skip {a : Rule} {s : Str} : (([] : Str), s) ∈ optT a s :=
  unionT_inr epsT_self

theorem mapOut_intro {g : Str → Str} {a : Rule} {o r s : Str} (h : (o, r) ∈ a s) :
    (g o, r) ∈ mapOut g a s :=
  mem_mapOut.mpr ⟨o, h, rfl⟩

end NemoMeasure

namespace NemoMeasure

theorem optional_graph_negative_cases {o r s : Str} :
    (o, r) ∈ optional_graph_negative s ↔
      (o = negTrue ∧ s = '-' :: r) ∨ (o = [] ∧ r = s) := by
  simp only [optional_graph_negative, mem_optT, mem_seqT, mem_insertT, mem_crossT]
  constructor
  · rintro (⟨o₁, r₁, o₂, ⟨rfl, rfl⟩, ⟨rfl, h2⟩, rfl⟩ | ⟨rfl, rfl⟩)
    · exact Or.inl ⟨rfl, by simpa [str] using h2⟩
    · exact Or.inr ⟨rfl, rfl⟩
  · rintro (⟨rfl, rfl⟩ | ⟨rfl, rfl⟩)
    · exact Or.inl ⟨str "negative: ", '-' :: r, str "\"true\" ", ⟨rfl, rfl⟩, ⟨rfl, by simp [str]⟩, rfl⟩
    · exact Or.inr ⟨rfl, rfl⟩

theorem mem_graph_unit {env : Collab} {o r s : Str} :
    (o, r) ∈ graph_unit env s ↔
      ∃ pre nu, nu ∈ env.measurements pre ∧ s = pre ++ r ∧ o = cspStr nu := by
  simp only [graph_unit, convert_space, mem_mapOut, mem_liftG]
  constructor
  · rintro ⟨o', ⟨pre, rfl, h⟩, rfl⟩
    exact ⟨pre, o', h, rfl, rfl⟩
  · rintro ⟨pre, nu, h, rfl, rfl⟩
    exact ⟨nu, ⟨pre, rfl, h⟩, rfl⟩

theorem mem_graph_unit_plural {env : Collab} {o r s : Str} :
    (o, r) ∈ graph_unit_plural env s ↔
      ∃ pre nu, nu ∈ env.measurements pre ∧ s = pre ++ r ∧
        o = cspStr (env.singularToPlural nu) := by
  simp only [graph_unit_plural, convert_space, mem_mapOut, mem_liftG]
  constructor
  · rintro ⟨o', ⟨o'', ⟨pre, rfl, h⟩, rfl⟩, rfl⟩
    exact ⟨pre, o'', h, rfl, rfl⟩
  · rintro ⟨pre, nu, h, rfl, rfl⟩
    exact ⟨env.singularToPlural nu, ⟨nu, ⟨pre, rfl, h⟩, rfl⟩, rfl⟩

end NemoMeasure

namespace NemoMeasure

theorem mem_graph_unit2 {env : Collab} {o r s : Str} :
    (o, r) ∈ graph_unit2 env s ↔
      ∃ w pre nu, (∀ c ∈ w, isSpaceChar c) ∧ nu ∈ env.measurements pre ∧
        s = '/' :: (w ++ (pre ++ r)) ∧ o = perOut (cspStr nu) := by
  simp only [graph_unit2, mem_seqT, mem_crossT, mem_delete_space, mem_insertT, mem_graph_unit]
  constructor
  · rintro ⟨o₁, r₁, o₂, ⟨rfl, hs⟩, ⟨o₃, r₃, o₄, ⟨rfl, w, hw, rfl⟩,
      ⟨o₅, r₅, o₆, ⟨rfl, rfl⟩, ⟨pre, nu, hnu, rfl, rfl⟩, rfl⟩, rfl⟩, rfl⟩
    refine ⟨w, pre, nu, hw, hnu, by simpa [str] using hs, ?_⟩
    simp [perOut, List.append_assoc]
  · rintro ⟨w, pre, nu, hw, hnu, rfl, rfl⟩
    refine ⟨str "per", w ++ (pre ++ r), [] ++ ([nbsp] ++ cspStr nu),
      ⟨rfl, by simp [str]⟩, ?_, by simp [perOut, List.append_assoc]⟩
    exact ⟨[], pre ++ r, [nbsp] ++ cspStr nu, ⟨rfl, w, hw, rfl⟩,
      ⟨[nbsp], pre ++ r, cspStr nu, ⟨rfl, rfl⟩, ⟨pre, nu, hnu, rfl, rfl⟩, rfl⟩, rfl⟩

end NemoMeasure

namespace NemoMeasure

theorem mem_optional_graph_unit2 {env : Collab} {o r s : Str} :
    (o, r) ∈ optional_graph_unit2 env s ↔
      (o = [] ∧ r = s) ∨
      ∃ w s₂ o₂, (∀ c ∈ w, isSpaceChar c) ∧ s = w ++ s₂ ∧
        (o₂, r) ∈ graph_unit2 env s₂ ∧ o = nbsp :: o₂ := by
  simp only [optional_graph_unit2, mem_optT, mem_seqT, mem_insertT, mem_delete_space]
  constructor
  · rintro (⟨o₁, r₁, o₂, ⟨rfl, w, hw, rfl⟩, ⟨o₃, r₃, o₄, ⟨rfl, rfl⟩, hgu2, rfl⟩, rfl⟩ | ⟨rfl, rfl⟩)
    · exact Or.inr ⟨w, _, _, hw, rfl, hgu2, rfl⟩
    · exact Or.inl ⟨rfl, rfl⟩
  · rintro (⟨rfl, rfl⟩ | ⟨w, s₂, o₂, hw, rfl, hgu2, rfl⟩)
    · exact Or.inr ⟨rfl, rfl⟩
    · exact Or.inl ⟨[], s₂, nbsp :: o₂, ⟨rfl, w, hw, rfl⟩,
        ⟨[nbsp], s₂, o₂, ⟨rfl, rfl⟩, hgu2, rfl⟩, rfl⟩

theorem mem_unit_plural {env : Collab} {o r s : Str} :
    (o, r) ∈ unit_plural env s ↔
      ∃ x, (x, r) ∈ unit_plural_core env s ∧ o = unitsField x := by
  simp only [unit_plural, mem_seqT, mem_insertT]
  constructor
  · rintro ⟨o₁, r₁, o₂, ⟨rfl, rfl⟩, ⟨x, r₂, o₃, hx, ⟨rfl, rfl⟩, rfl⟩, rfl⟩
    exact ⟨x, hx, by simp [unitsField, List.append_assoc]⟩
  · rintro ⟨x, hx, rfl⟩
    exact ⟨str "units: \"", s, x ++ str "\"", ⟨rfl, rfl⟩,
      ⟨x, r, str "\"", hx, ⟨rfl, rfl⟩, rfl⟩, by simp [unitsField, List.append_assoc]⟩

theorem mem_unit_singular {env : Collab} {o r s : Str} :
    (o, r) ∈ unit_singular env s ↔
      ∃ x, (x, r) ∈ unit_singular_core env s ∧ o = unitsField x := by
  simp only [unit_singular, mem_seqT, mem_insertT]
  constructor
  · rintro ⟨o₁, r₁, o₂, ⟨rfl, rfl⟩, ⟨x, r₂, o₃, hx, ⟨rfl, rfl⟩, rfl⟩, rfl⟩
    exact ⟨x, hx, by simp [unitsField, List.append_assoc]⟩
  · rintro ⟨x, hx, rfl⟩
    exact ⟨str "units: \"", s, x ++ str "\"", ⟨rfl, rfl⟩,
      ⟨x, r, str "\"", hx, ⟨rfl, rfl⟩, rfl⟩, by simp [unitsField, List.append_assoc]⟩

theorem mem_unit_plural_core {env : Collab} {x r s : Str} :
    (x, r) ∈ unit_plural_core env s ↔
      (∃ xu xo s₂, (xu, s₂) ∈ graph_unit_plural env s ∧
        (xo, r) ∈ optional_graph_unit2 env s₂ ∧ x = xu ++ xo) ∨
      (x, r) ∈ graph_unit2 env s := by
  simp only [unit_plural_core, mem_unionT, mem_seqT]
  constructor
  · rintro (⟨xu, s₂, xo, h1, h2, rfl⟩ | h)
    · exact Or.inl ⟨xu, xo, s₂, h1, h2, rfl⟩
    · exact Or.inr h
  · rintro (⟨xu, xo, s₂, h1, h2, rfl⟩ | h)
    · exact Or.inl ⟨xu, s₂, xo, h1, h2, rfl⟩
    · exact Or.inr h

theorem mem_unit_singular_core {env : Collab} {x r s : Str} :
    (x, r) ∈ unit_singular_core env s ↔
      (∃ xu xo s₂, (xu, s₂) ∈ graph_unit env s ∧
        (xo, r) ∈ optional_graph_unit2 env s₂ ∧ x = xu ++ xo) ∨
      (x, r) ∈ graph_unit2 env s := by
  simp only [unit_singular_core, mem_unionT, mem_seqT]
  constructor
  · rintro (⟨xu, s₂, xo, h1, h2, rfl⟩ | h)
    · exact Or.inl ⟨xu, xo, s₂, h1, h2, rfl⟩
    · exact Or.inr h
  · rintro (⟨xu, xo, s₂, h1, h2, rfl⟩ | h)
    · exact Or.inl ⟨xu, s₂, xo, h1, h2, rfl⟩
    · exact Or.inr h

end NemoMeasure

namespace NemoMeasure

theorem mem_subgraph_cardinal_plural {env : Collab} {det : Bool} {o r s : Str} :
    (o, r) ∈ subgraph_cardinal_plural env det s ↔
      ∃ negO s₁ pre w ws s₂ x,
        ((negO = negTrue ∧ s = '-' :: s₁) ∨ (negO = [] ∧ s₁ = s)) ∧
        w ∈ minusOne (cardinalGraphEff env det) pre ∧
        (∀ c ∈ ws, isSpaceChar c) ∧
        s₁ = pre ++ (ws ++ s₂) ∧
        (x, r) ∈ unit_plural env s₂ ∧
        o = cardinalBlock negO w ++ x := by
  simp only [subgraph_cardinal_plural, mem_seqT, mem_insertT, optional_graph_negative_cases,
    mem_liftG, mem_delete_space]
  constructor
  · rintro ⟨o₁, r₁, o₂, ⟨rfl, rfl⟩, ⟨negO, s₁, o₃, hneg, ⟨o₄, r₄, o₅, ⟨rfl, rfl⟩,
      ⟨w, r₅, o₆, ⟨pre, rfl, hwmem⟩, ⟨o₇, r₇, o₈, ⟨rfl, ws, hws, rfl⟩,
        ⟨o₉, r₉, o₁₀, ⟨rfl, rfl⟩, ⟨o₁₁, r₁₁, x, ⟨rfl, rfl⟩, hx, rfl⟩, rfl⟩, rfl⟩, rfl⟩, rfl⟩, rfl⟩, rfl⟩
    exact ⟨negO, _, pre, w, ws, _, x, hneg, hwmem, hws, rfl, hx,
      by simp [cardinalBlock, List.append_assoc]⟩
  · rintro ⟨negO, s₁, pre, w, ws, s₂, x, hneg, hw, hws, rfl, hx, rfl⟩
    exact ⟨str "cardinal \x7b ", s, _, ⟨rfl, rfl⟩,
      ⟨negO, _, _, hneg,
        ⟨str "integer: \"", _, _, ⟨rfl, rfl⟩,
          ⟨w, ws ++ s₂, _, ⟨pre, rfl, hw⟩,
            ⟨[], s₂, _, ⟨rfl, ws, hws, rfl⟩,
              ⟨str "\"", s₂, _, ⟨rfl, rfl⟩,
                ⟨str " \x7d ", s₂, x, ⟨rfl, rfl⟩, hx, rfl⟩, rfl⟩, rfl⟩, rfl⟩, rfl⟩, rfl⟩,
      by simp [cardinalBlock, List.append_assoc]⟩

end NemoMeasure

namespace NemoMeasure

theorem mem_subgraph_cardinal_singular {env : Collab} {o r s : Str} :
    (o, r) ∈ subgraph_cardinal_singular env s ↔
      ∃ negO s₁ ws s₂ x,
        ((negO = negTrue ∧ s = '-' :: s₁) ∨ (negO = [] ∧ s₁ = s)) ∧
        (∀ c ∈ ws, isSpaceChar c) ∧
        s₁ = '1' :: (ws ++ s₂) ∧
        (x, r) ∈ unit_singular env s₂ ∧
        o = cardinalBlock negO (str "one") ++ x := by
  simp only [subgraph_cardinal_singular, mem_seqT, mem_insertT, optional_graph_negative_cases,
    mem_crossT, mem_delete_space]
  constructor
  · rintro ⟨o₁, r₁, o₂, ⟨rfl, rfl⟩, ⟨negO, s₁, o₃, hneg, ⟨o₄, r₄, o₅, ⟨rfl, rfl⟩,
      ⟨o₆, r₆, o₇, ⟨rfl, hone⟩, ⟨o₈, r₈, o₉, ⟨rfl, ws, hws, rfl⟩,
        ⟨o₁₀, r₁₀, o₁₁, ⟨rfl, rfl⟩, ⟨o₁₂, r₁₂, x, ⟨rfl, rfl⟩, hx, rfl⟩, rfl⟩, rfl⟩, rfl⟩, rfl⟩, rfl⟩, rfl⟩
    refine ⟨negO, _, ws, _, x, hneg, hws, ?_, hx, by simp [cardinalBlock, List.append_assoc]⟩
    simpa [str] using hone
  · rintro ⟨negO, s₁, ws, s₂, x, hneg, hws, rfl, hx, rfl⟩
    exact ⟨str "cardinal \x7b ", s, _, ⟨rfl, rfl⟩,
      ⟨negO, _, _, hneg,
        ⟨str "integer: \"", _, _, ⟨rfl, rfl⟩,
          ⟨str "one", ws ++ s₂, _, ⟨rfl, by simp [str]⟩,
            ⟨[], s₂, _, ⟨rfl, ws, hws, rfl⟩,
              ⟨str "\"", s₂, _, ⟨rfl, rfl⟩,
                ⟨str " \x7d ", s₂, x, ⟨rfl, rfl⟩, hx, rfl⟩, rfl⟩, rfl⟩, rfl⟩, rfl⟩, rfl⟩,
      by simp [cardinalBlock, List.append_assoc]⟩

theorem mem_subgraph_decimal {env : Collab} {o r s : Str} :
    (o, r) ∈ subgraph_decimal env s ↔
      ∃ negO s₁ pre w ws s₂ x,
        ((negO = negTrue ∧ s = '-' :: s₁) ∨ (negO = [] ∧ s₁ = s)) ∧
        w ∈ env.decimal_final_wo_negative pre ∧
        (∀ c ∈ ws, isSpaceChar c) ∧
        s₁ = pre ++ (ws ++ s₂) ∧
        (x, r) ∈ unit_plural env s₂ ∧
        o = decimalBlock negO w ++ x := by
  simp only [subgraph_decimal, mem_seqT, mem_insertT, optional_graph_negative_cases,
    mem_liftG, mem_delete_space]
  constructor
  · rintro ⟨o₁, r₁, o₂, ⟨rfl, rfl⟩, ⟨negO, s₁, o₃, hneg, ⟨w, r₄, o₅, ⟨pre, rfl, hwmem⟩,
      ⟨o₆, r₆, o₇, ⟨rfl, ws, hws, rfl⟩,
        ⟨o₈, r₈, x, ⟨rfl, rfl⟩, hx, rfl⟩, rfl⟩, rfl⟩, rfl⟩, rfl⟩
    exact ⟨negO, _, pre, w, ws, _, x, hneg, hwmem, hws, rfl, hx,
      by simp [decimalBlock, List.append_assoc]⟩
  · rintro ⟨negO, s₁, pre, w, ws, s₂, x, hneg, hw, hws, rfl, hx, rfl⟩
    exact ⟨str "decimal \x7b ", s, _, ⟨rfl, rfl⟩,
      ⟨negO, _, _, hneg,
        ⟨w, ws ++ s₂, _, ⟨pre, rfl, hw⟩,
          ⟨[], s₂, _, ⟨rfl, ws, hws, rfl⟩,
            ⟨str " \x7d ", s₂, x, ⟨rfl, rfl⟩, hx, rfl⟩, rfl⟩, rfl⟩, rfl⟩,
      by simp [decimalBlock, List.append_assoc]⟩

end NemoMeasure

namespace NemoMeasure

theorem mem_cardinal_dash_alpha {env : Collab} {det : Bool} {o r s : Str} :
    (o, r) ∈ cardinal_dash_alpha env det s ↔
      ∃ pre w a, w ∈ cardinalGraphEff env det pre ∧ a ≠ [] ∧ (∀ c ∈ a, c.isAlpha) ∧
        s = pre ++ ('-' :: (a ++ r)) ∧ o = cardinalDashOut w a := by
  simp only [cardinal_dash_alpha, mem_seqT, mem_insertT, mem_liftG, mem_crossT, mem_alphaPlus]
  constructor
  · rintro ⟨o₁, r₁, o₂, ⟨rfl, rfl⟩, ⟨w, r₂, o₃, ⟨pre, rfl, hw⟩,
      ⟨o₄, r₄, o₅, ⟨rfl, hdash⟩, ⟨o₆, r₆, o₇, ⟨rfl, rfl⟩,
        ⟨a, r₇, o₈, ⟨ha1, ha2, rfl⟩, ⟨rfl, rfl⟩, rfl⟩, rfl⟩, rfl⟩, rfl⟩, rfl⟩
    refine ⟨pre, w, a, hw, ha1, ha2, ?_, by simp [cardinalDashOut, List.append_assoc]⟩
    rw [show str "-" ++ (a ++ r) = '-' :: (a ++ r) from rfl] at hdash
    rw [hdash]
  · rintro ⟨pre, w, a, hw, ha1, ha2, rfl, rfl⟩
    exact ⟨str "cardinal \x7b integer: \"", _, _, ⟨rfl, rfl⟩,
      ⟨w, '-' :: (a ++ r), _, ⟨pre, rfl, hw⟩,
        ⟨[], a ++ r, _, ⟨rfl, rfl⟩,
          ⟨str "\" \x7d units: \"", a ++ r, _, ⟨rfl, rfl⟩,
            ⟨a, r, str "\"", ⟨ha1, ha2, rfl⟩, ⟨rfl, rfl⟩, rfl⟩, rfl⟩, rfl⟩, rfl⟩,
      by simp [cardinalDashOut, List.append_assoc]⟩

theorem mem_alpha_dash_cardinal {env : Collab} {det : Bool} {o r s : Str} :
    (o, r) ∈ alpha_dash_cardinal env det s ↔
      ∃ a pre w, a ≠ [] ∧ (∀ c ∈ a, c.isAlpha) ∧ w ∈ cardinalGraphEff env det pre ∧
        s = a ++ ('-' :: (pre ++ r)) ∧ o = alphaDashCardinalOut a w := by
  simp only [alpha_dash_cardinal, mem_seqT, mem_insertT, mem_liftG, mem_crossT, mem_alphaPlus]
  constructor
  · rintro ⟨o₁, r₁, o₂, ⟨rfl, rfl⟩, ⟨a, r₂, o₃, ⟨ha1, ha2, rfl⟩,
      ⟨o₄, r₄, o₅, ⟨rfl, hdash⟩, ⟨o₆, r₆, o₇, ⟨rfl, rfl⟩,
        ⟨o₈, r₈, o₉, ⟨rfl, rfl⟩, ⟨w, r₉, o₁₀, ⟨pre, rfl, hw⟩, ⟨rfl, rfl⟩, rfl⟩, rfl⟩, rfl⟩, rfl⟩, rfl⟩, rfl⟩
    refine ⟨a, pre, w, ha1, ha2, hw, ?_, by simp [alphaDashCardinalOut, List.append_assoc]⟩
    rw [show str "-" ++ (pre ++ r) = '-' :: (pre ++ r) from rfl] at hdash
    rw [hdash]
  · rintro ⟨a, pre, w, ha1, ha2, hw, rfl, rfl⟩
    exact ⟨str "units: \"", _, _, ⟨rfl, rfl⟩,
      ⟨a, '-' :: (pre ++ r), _, ⟨ha1, ha2, rfl⟩,
        ⟨[], pre ++ r, _, ⟨rfl, rfl⟩,
          ⟨str "\"", pre ++ r, _, ⟨rfl, rfl⟩,
            ⟨str " cardinal \x7b integer: \"", pre ++ r, _, ⟨rfl, rfl⟩,
              ⟨w, r, str "\" \x7d preserve_order: true", ⟨pre, rfl, hw⟩, ⟨rfl, rfl⟩, rfl⟩,
                rfl⟩, rfl⟩, rfl⟩, rfl⟩,
      by simp [alphaDashCardinalOut, List.append_assoc]⟩

theorem mem_decimal_dash_alpha {env : Collab} {o r s : Str} :
    (o, r) ∈ decimal_dash_alpha env s ↔
      ∃ pre w a, w ∈ env.decimal_final_wo_negative pre ∧ a ≠ [] ∧ (∀ c ∈ a, c.isAlpha) ∧
        s = pre ++ ('-' :: (a ++ r)) ∧ o = decimalDashOut w a := by
  simp only [decimal_dash_alpha, mem_seqT, mem_insertT, mem_liftG, mem_crossT, mem_alphaPlus]
  constructor
  · rintro ⟨o₁, r₁, o₂, ⟨rfl, rfl⟩, ⟨w, r₂, o₃, ⟨pre, rfl, hw⟩,
      ⟨o₄, r₄, o₅, ⟨rfl, hdash⟩, ⟨o₆, r₆, o₇, ⟨rfl, rfl⟩,
        ⟨a, r₇, o₈, ⟨ha1, ha2, rfl⟩, ⟨rfl, rfl⟩, rfl⟩, rfl⟩, rfl⟩, rfl⟩, rfl⟩
    refine ⟨pre, w, a, hw, ha1, ha2, ?_, by simp [decimalDashOut, List.append_assoc]⟩
    rw [show str "-" ++ (a ++ r) = '-' :: (a ++ r) from rfl] at hdash
    rw [hdash]
  · rintro ⟨pre, w, a, hw, ha1, ha2, rfl, rfl⟩
    exact ⟨str "decimal \x7b ", _, _, ⟨rfl, rfl⟩,
      ⟨w, '-' :: (a ++ r), _, ⟨pre, rfl, hw⟩,
        ⟨[], a ++ r, _, ⟨rfl, rfl⟩,
          ⟨str " \x7d units: \"", a ++ r, _, ⟨rfl, rfl⟩,
            ⟨a, r, str "\"", ⟨ha1, ha2, rfl⟩, ⟨rfl, rfl⟩, rfl⟩, rfl⟩, rfl⟩, rfl⟩,
      by simp [decimalDashOut, List.append_assoc]⟩

theorem mem_alpha_dash_decimal {env : Collab} {o r s : Str} :
    (o, r) ∈ alpha_dash_decimal env s ↔
      ∃ a pre w, a ≠ [] ∧ (∀ c ∈ a, c.isAlpha) ∧ w ∈ env.decimal_final_wo_negative pre ∧
        s = a ++ ('-' :: (pre ++ r)) ∧ o = alphaDashDecimalOut a w := by
  simp only [alpha_dash_decimal, mem_seqT, mem_insertT, mem_liftG, mem_crossT, mem_alphaPlus]
  constructor
  · rintro ⟨o₁, r₁, o₂, ⟨rfl, rfl⟩, ⟨a, r₂, o₃, ⟨ha1, ha2, rfl⟩,
      ⟨o₄, r₄, o₅, ⟨rfl, hdash⟩, ⟨o₆, r₆, o₇, ⟨rfl, rfl⟩,
        ⟨o₈, r₈, o₉, ⟨rfl, rfl⟩, ⟨w, r₉, o₁₀, ⟨pre, rfl, hw⟩, ⟨rfl, rfl⟩, rfl⟩, rfl⟩, rfl⟩, rfl⟩, rfl⟩, rfl⟩
    refine ⟨a, pre, w, ha1, ha2, hw, ?_, by simp [alphaDashDecimalOut, List.append_assoc]⟩
    rw [show str "-" ++ (pre ++ r) = '-' :: (pre ++ r) from rfl] at hdash
    rw [hdash]
  · rintro ⟨a, pre, w, ha1, ha2, hw, rfl, rfl⟩
    exact ⟨str "units: \"", _, _, ⟨rfl, rfl⟩,
      ⟨a, '-' :: (pre ++ r), _, ⟨ha1, ha2, rfl⟩,
        ⟨[], pre ++ r, _, ⟨rfl, rfl⟩,
          ⟨str "\"", pre ++ r, _, ⟨rfl, rfl⟩,
            ⟨str " decimal \x7b ", pre ++ r, _, ⟨rfl, rfl⟩,
              ⟨w, r, str " \x7d preserve_order: true", ⟨pre, rfl, hw⟩, ⟨rfl, rfl⟩, rfl⟩,
                rfl⟩, rfl⟩, rfl⟩, rfl⟩,
      by simp [alphaDashDecimalOut, List.append_assoc]⟩

end NemoMeasure

namespace NemoMeasure

theorem unit_plural_primary {env : Collab} {u nu : Str} (h : nu ∈ env.measurements u) :
    (unitsField (cspStr (env.singularToPlural nu)), ([] : Str)) ∈ unit_plural env u := by
  refine mem_unit_plural.mpr ⟨cspStr (env.singularToPlural nu) ++ [], ?_, by simp [unitsField]⟩
  refine mem_unit_plural_core.mpr (Or.inl ⟨_, [], [], ?_,
    mem_optional_graph_unit2.mpr (Or.inl ⟨rfl, rfl⟩), rfl⟩)
  exact mem_graph_unit_plural.mpr ⟨u, nu, h, by simp, rfl⟩

theorem unit_singular_primary {env : Collab} {u nu : Str} (h : nu ∈ env.measurements u) :
    (unitsField (cspStr nu), ([] : Str)) ∈ unit_singular env u := by
  refine mem_unit_singular.mpr ⟨cspStr nu ++ [], ?_, by simp [unitsField]⟩
  refine mem_unit_singular_core.mpr (Or.inl ⟨_, [], [], ?_,
    mem_optional_graph_unit2.mpr (Or.inl ⟨rfl, rfl⟩), rfl⟩)
  exact mem_graph_unit.mpr ⟨u, nu, h, by simp, rfl⟩

theorem unit_plural_bare2 {env : Collab} {u2 nu2 : Str} (h : nu2 ∈ env.measurements u2) :
    (unitsField (perOut (cspStr nu2)), ([] : Str)) ∈ unit_plural env (str "/" ++ u2) := by
  refine mem_unit_plural.mpr ⟨perOut (cspStr nu2), ?_, rfl⟩
  exact mem_unit_plural_core.mpr (Or.inr (mem_graph_unit2.mpr
    ⟨[], u2, nu2, by simp, h, by simp [str], rfl⟩))

theorem unit_singular_bare2 {env : Collab} {u2 nu2 : Str} (h : nu2 ∈ env.measurements u2) :
    (unitsField (perOut (cspStr nu2)), ([] : Str)) ∈ unit_singular env (str "/" ++ u2) := by
  refine mem_unit_singular.mpr ⟨perOut (cspStr nu2), ?_, rfl⟩
  exact mem_unit_singular_core.mpr (Or.inr (mem_graph_unit2.mpr
    ⟨[], u2, nu2, by simp, h, by simp [str], rfl⟩))

theorem subgraph_cardinal_plural_intro {env : Collab} {det : Bool} {n u w x : Str}
    (hw : w ∈ minusOne (cardinalGraphEff env det) n)
    (hx : (x, ([] : Str)) ∈ unit_plural env u) :
    (cardinalBlock [] w ++ x, ([] : Str)) ∈ subgraph_cardinal_plural env det (n ++ u) :=
  mem_subgraph_cardinal_plural.mpr
    ⟨[], n ++ u, n, w, [], u, x, Or.inr ⟨rfl, rfl⟩, hw, by simp, by simp, hx, rfl⟩

theorem subgraph_cardinal_singular_intro {env : Collab} {u x : Str}
    (hx : (x, ([] : Str)) ∈ unit_singular env u) :
    (cardinalBlock [] (str "one") ++ x, ([] : Str))
      ∈ subgraph_cardinal_singular env (str "1" ++ u) :=
  mem_subgraph_cardinal_singular.mpr
    ⟨[], str "1" ++ u, [], u, x, Or.inr ⟨rfl, rfl⟩, by simp, by simp [str], hx, rfl⟩

theorem subgraph_decimal_intro {env : Collab} {d u w x : Str}
    (hw : w ∈ env.decimal_final_wo_negative d)
    (hx : (x, ([] : Str)) ∈ unit_plural env u) :
    (decimalBlock [] w ++ x, ([] : Str)) ∈ subgraph_decimal env (d ++ u) :=
  mem_subgraph_decimal.mpr
    ⟨[], d ++ u, d, w, [], u, x, Or.inr ⟨rfl, rfl⟩, hw, by simp, by simp, hx, rfl⟩

theorem minusOne_intro {f : Str → List Str} {n w : Str} (hw : w ∈ f n) (hn : n ≠ str "1") :
    w ∈ minusOne f n := by
  simpa [minusOne, hn] using hw

end NemoMeasure

namespace NemoMeasure

theorem mem_subgraph_cardinal {env : Collab} {det : Bool} {o r s : Str} :
    (o, r) ∈ subgraph_cardinal env det s ↔
      (o, r) ∈ subgraph_cardinal_plural env det s ∨
      (o, r) ∈ subgraph_cardinal_singular env s := by
  simp [subgraph_cardinal, mem_unionT]

theorem mem_final_graph {env : Collab} {det : Bool} {o r s : Str} :
    (o, r) ∈ final_graph env det s ↔
      ∃ x, ((x, r) ∈ subgraph_decimal env s ∨
            (x, r) ∈ subgraph_cardinal env det s ∨
            (x, r) ∈ cardinal_dash_alpha env det s ∨
            (x, r) ∈ alpha_dash_cardinal env det s ∨
            (x, r) ∈ decimal_dash_alpha env s ∨
            (x, r) ∈ alpha_dash_decimal env s) ∧
        o = measureTok x := by
  simp only [final_graph, add_tokens, mem_seqT, mem_insertT, mem_unionT]
  constructor
  · rintro ⟨o₁, r₁, o₂, ⟨rfl, rfl⟩, ⟨x, r₂, o₃, hx, ⟨rfl, rfl⟩, rfl⟩, rfl⟩
    exact ⟨x, hx, by simp [measureTok, List.append_assoc]⟩
  · rintro ⟨x, hx, rfl⟩
    exact ⟨str "measure \x7b ", s, _, ⟨rfl, rfl⟩,
      ⟨x, r, str " \x7d", hx, ⟨rfl, rfl⟩, rfl⟩, by simp [measureTok, List.append_assoc]⟩

/-- C2: evaluation of the composed deterministic grammar at the input
-12kg.  The single candidate nests the negative field inside the cardinal
block, so the annotation claimed by the spec (negative before the cardinal
block opener, as in the module docstring) is not produced. -/
theorem C2_minus12kg_actual_output :
    fullMatches (final_graph sampleEnv true) (str "-12kg") =
      [str "measure \x7b cardinal \x7b negative: \"true\" integer: \"twelve\" \x7d units: \"kilograms\" \x7d"]
    ∧ str "measure \x7b negative: \"true\" cardinal \x7b integer: \"twelve\" \x7d units: \"kilograms\" \x7d"
        ∉ fullMatches (final_graph sampleEnv true) (str "-12kg") := by
  exact ⟨by decide, by decide⟩

/-- C1: for a unit u in the lexicon, a plain cardinal measure whose
numeric surface text n is not the literal 1 emits the plural unit form;
the input 1 followed by u emits the singular unit form with magnitude word
one; the literal 1 is excluded from the domain of the plural branch
cardinal grammar; and a plain decimal measure emits the plural unit
form. -/
theorem C1_unit_form_selection (env : Collab) (det : Bool) (n u w nu d wd : Str)
    (hw : w ∈ cardinalGraphEff env det n) (hn1 : n ≠ str "1")
    (hnu : nu ∈ env.measurements u) (hwd : wd ∈ env.decimal_final_wo_negative d) :
    cardinalBlock [] w ++ unitsField (cspStr (env.singularToPlural nu))
        ∈ fullMatches (subgraph_cardinal env det) (n ++ u)
    ∧ cardinalBlock [] (str "one") ++ unitsField (cspStr nu)
        ∈ fullMatches (subgraph_cardinal env det) (str "1" ++ u)
    ∧ (∀ o r : Str, (o, r) ∉ liftG (minusOne (cardinalGraphEff env det)) (str "1" ++ r))
    ∧ decimalBlock [] wd ++ unitsField (cspStr (env.singularToPlural nu))
        ∈ fullMatches (subgraph_decimal env) (d ++ u) := by
  refine ⟨?_, ?_, ?_, ?_⟩
  · exact mem_fullMatches.mpr (mem_subgraph_cardinal.mpr (Or.inl
      (subgraph_cardinal_plural_intro (minusOne_intro hw hn1) (unit_plural_primary hnu))))
  · exact mem_fullMatches.mpr (mem_subgraph_cardinal.mpr (Or.inr
      (subgraph_cardinal_singular_intro (unit_singular_primary hnu))))
  · intro o r h
    obtain ⟨pre, heq, hmem⟩ := mem_liftG.mp h
    have hpre : pre = str "1" := List.append_cancel_right heq.symm
    subst hpre
    simp [minusOne] at hmem
  · exact mem_fullMatches.mpr (subgraph_decimal_intro hwd (unit_plural_primary hnu))

/-- C1 witness: the unit-form selection theorem instantiated at 12kg,
1kg and .5kg over the sample collaborators. -/
theorem C1_unit_form_selection_witness :
    (str "twelve" ∈ cardinalGraphEff sampleEnv true (str "12"))
    ∧ cardinalBlock [] (str "twelve")
        ++ unitsField (cspStr (sampleEnv.singularToPlural (str "kilogram")))
        ∈ fullMatches (subgraph_cardinal sampleEnv true) (str "12" ++ str "kg")
    ∧ cardinalBlock [] (str "one") ++ unitsField (cspStr (str "kilogram"))
        ∈ fullMatches (subgraph_cardinal sampleEnv true) (str "1" ++ str "kg")
    ∧ ((str "one", ([] : Str))
        ∉ liftG (minusOne (cardinalGraphEff sampleEnv true)) (str "1" ++ ([] : Str)))
    ∧ decimalBlock [] (str "fractional_part: \"five\"")
        ++ unitsField (cspStr (sampleEnv.singularToPlural (str "kilogram")))
        ∈ fullMatches (subgraph_decimal sampleEnv) (str ".5" ++ str "kg") := by
  have h := C1_unit_form_selection sampleEnv true (str "12") (str "kg") (str "twelve")
    (str "kilogram") (str ".5") (str "fractional_part: \"five\"")
    (by decide) (by decide) (by decide) (by decide)
  exact ⟨by decide, h.1, h.2.1, h.2.2.1 (str "one") [], h.2.2.2⟩

end NemoMeasure

namespace NemoMeasure

/-- C6: the exclusion of the literal 1 applies only to the plain plural
cardinal branch: the restricted grammar of that branch never consumes the
span 1, while the number-dash-unit branch uses the full cardinal grammar,
so 1-ounce style inputs match there with no singular special case and a
verbatim unit. -/
theorem C6_exclusion_only_plain_branch (env : Collab) (det : Bool) (w a : Str)
    (hw : w ∈ cardinalGraphEff env det (str "1"))
    (ha1 : a ≠ []) (ha2 : ∀ c ∈ a, c.isAlpha) :
    (∀ o r : Str, (o, r) ∉ liftG (minusOne (cardinalGraphEff env det)) (str "1" ++ r))
    ∧ cardinalDashOut w a ∈ fullMatches (cardinal_dash_alpha env det) (str "1-" ++ a) := by
  constructor
  · intro o r h
    obtain ⟨pre, heq, hmem⟩ := mem_liftG.mp h
    have hpre : pre = str "1" := List.append_cancel_right heq.symm
    subst hpre
    simp [minusOne] at hmem
  · exact mem_fullMatches.mpr (mem_cardinal_dash_alpha.mpr
      ⟨str "1", w, a, hw, ha1, ha2, by simp [str], rfl⟩)

/-- C6 witness: the exclusion theorem instantiated at the input 1-ounce
over the sample collaborators. -/
theorem C6_exclusion_only_plain_branch_witness :
    (str "one" ∈ cardinalGraphEff sampleEnv true (str "1"))
    ∧ ((str "one", ([] : Str))
        ∉ liftG (minusOne (cardinalGraphEff sampleEnv true)) (str "1" ++ ([] : Str)))
    ∧ cardinalDashOut (str "one") (str "ounce")
        ∈ fullMatches (cardinal_dash_alpha sampleEnv true) (str "1-" ++ str "ounce") := by
  have h := C6_exclusion_only_plain_branch sampleEnv true (str "one") (str "ounce")
    (by decide) (by decide) (by decide)
  exact ⟨by decide, h.1 (str "one") [], h.2⟩

/-- C9: in both the plural and the singular unit rules the per-unit
suffix alternative stands alone, so a measure whose whole unit part is a
division marker followed by a lexicon unit is recognized, with units
per-u2 and no primary unit. -/
theorem C9_bare_per_suffix (env : Collab) (det : Bool) (n u2 w nu2 : Str)
    (hw : w ∈ cardinalGraphEff env det n) (hn1 : n ≠ str "1")
    (hnu2 : nu2 ∈ env.measurements u2) :
    cardinalBlock [] w ++ unitsField (perOut (cspStr nu2))
        ∈ fullMatches (subgraph_cardinal env det) (n ++ (str "/" ++ u2))
    ∧ cardinalBlock [] (str "one") ++ unitsField (perOut (cspStr nu2))
        ∈ fullMatches (subgraph_cardinal env det) (str "1" ++ (str "/" ++ u2)) := by
  constructor
  · exact mem_fullMatches.mpr (mem_subgraph_cardinal.mpr (Or.inl
      (subgraph_cardinal_plural_intro (minusOne_intro hw hn1) (unit_plural_bare2 hnu2))))
  · exact mem_fullMatches.mpr (mem_subgraph_cardinal.mpr (Or.inr
      (subgraph_cardinal_singular_intro (unit_singular_bare2 hnu2))))

/-- C9 witness: the bare per-suffix theorem instantiated at 5/hour and
1/hour over the sample collaborators. -/
theorem C9_bare_per_suffix_witness :
    (str "five" ∈ cardinalGraphEff sampleEnv true (str "5"))
    ∧ cardinalBlock [] (str "five") ++ unitsField (perOut (cspStr (str "hour")))
        ∈ fullMatches (subgraph_cardinal sampleEnv true) (str "5" ++ (str "/" ++ str "hour"))
    ∧ cardinalBlock [] (str "one") ++ unitsField (perOut (cspStr (str "hour")))
        ∈ fullMatches (subgraph_cardinal sampleEnv true) (str "1" ++ (str "/" ++ str "hour")) := by
  have h := C9_bare_per_suffix sampleEnv true (str "5") (str "hour") (str "five") (str "hour")
    (by decide) (by decide) (by decide)
  exact ⟨by decide, h.1, h.2⟩

end NemoMeasure

namespace NemoMeasure

/-- C4: dash-joined shapes.  Every full match of the number-dash-unit
branches deletes the dash, takes the unit as a verbatim alphabetic span
with no lexicon lookup, puts the numeric field first and emits no
preserve-order field; every full match of the unit-dash-number branches
deletes the dash, puts the units field first and appends preserve_order:
true; and well-formed dash inputs are recognized. -/
theorem C4_dash_shapes (env : Collab) (det : Bool) :
    (∀ s o, o ∈ fullMatches (cardinal_dash_alpha env det) s →
      ∃ pre w a, w ∈ cardinalGraphEff env det pre ∧ a ≠ [] ∧ (∀ c ∈ a, c.isAlpha) ∧
        s = pre ++ ('-' :: a) ∧ o = cardinalDashOut w a)
    ∧ (∀ s o, o ∈ fullMatches (decimal_dash_alpha env) s →
      ∃ pre w a, w ∈ env.decimal_final_wo_negative pre ∧ a ≠ [] ∧ (∀ c ∈ a, c.isAlpha) ∧
        s = pre ++ ('-' :: a) ∧ o = decimalDashOut w a)
    ∧ (∀ s o, o ∈ fullMatches (alpha_dash_cardinal env det) s →
      ∃ a pre w, a ≠ [] ∧ (∀ c ∈ a, c.isAlpha) ∧ w ∈ cardinalGraphEff env det pre ∧
        s = a ++ ('-' :: pre) ∧ o = alphaDashCardinalOut a w)
    ∧ (∀ s o, o ∈ fullMatches (alpha_dash_decimal env) s →
      ∃ a pre w, a ≠ [] ∧ (∀ c ∈ a, c.isAlpha) ∧ w ∈ env.decimal_final_wo_negative pre ∧
        s = a ++ ('-' :: pre) ∧ o = alphaDashDecimalOut a w)
    ∧ (∀ n w a, w ∈ cardinalGraphEff env det n → a ≠ [] → (∀ c ∈ a, c.isAlpha) →
        cardinalDashOut w a ∈ fullMatches (cardinal_dash_alpha env det) (n ++ ('-' :: a))
        ∧ alphaDashCardinalOut a w
            ∈ fullMatches (alpha_dash_cardinal env det) (a ++ ('-' :: n))) := by
  refine ⟨?_, ?_, ?_, ?_, ?_⟩
  · intro s o h
    obtain ⟨pre, w, a, hw, ha1, ha2, hs, ho⟩ := mem_cardinal_dash_alpha.mp (mem_fullMatches.mp h)
    exact ⟨pre, w, a, hw, ha1, ha2, by simpa using hs, ho⟩
  · intro s o h
    obtain ⟨pre, w, a, hw, ha1, ha2, hs, ho⟩ := mem_decimal_dash_alpha.mp (mem_fullMatches.mp h)
    exact ⟨pre, w, a, hw, ha1, ha2, by simpa using hs, ho⟩
  · intro s o h
    obtain ⟨a, pre, w, ha1, ha2, hw, hs, ho⟩ := mem_alpha_dash_cardinal.mp (mem_fullMatches.mp h)
    exact ⟨a, pre, w, ha1, ha2, hw, by simpa using hs, ho⟩
  · intro s o h
    obtain ⟨a, pre, w, ha1, ha2, hw, hs, ho⟩ := mem_alpha_dash_decimal.mp (mem_fullMatches.mp h)
    exact ⟨a, pre, w, ha1, ha2, hw, by simpa using hs, ho⟩
  · intro n w a hw ha1 ha2
    constructor
    · exact mem_fullMatches.mpr (mem_cardinal_dash_alpha.mpr
        ⟨n, w, a, hw, ha1, ha2, by simp, rfl⟩)
    · exact mem_fullMatches.mpr (mem_alpha_dash_cardinal.mpr
        ⟨a, n, w, ha1, ha2, hw, by simp, rfl⟩)

/-- C4 witness: the dash-shape theorem instantiated at 5-ounce and
ounce-5 over the sample collaborators. -/
theorem C4_dash_shapes_witness :
    (str "five" ∈ cardinalGraphEff sampleEnv true (str "5"))
    ∧ cardinalDashOut (str "five") (str "ounce")
        ∈ fullMatches (cardinal_dash_alpha sampleEnv true) (str "5" ++ ('-' :: str "ounce"))
    ∧ alphaDashCardinalOut (str "ounce") (str "five")
        ∈ fullMatches (alpha_dash_cardinal sampleEnv true) (str "ounce" ++ ('-' :: str "5"))
    ∧ (∃ pre w a, w ∈ cardinalGraphEff sampleEnv true pre ∧ a ≠ [] ∧ (∀ c ∈ a, c.isAlpha) ∧
        str "5" ++ ('-' :: str "ounce") = pre ++ ('-' :: a) ∧
        cardinalDashOut (str "five") (str "ounce") = cardinalDashOut w a) := by
  have h := C4_dash_shapes sampleEnv true
  have hmem := h.2.2.2.2 (str "5") (str "five") (str "ounce") (by decide) (by decide) (by decide)
  exact ⟨by decide, hmem.1, hmem.2,
    h.1 (str "5" ++ ('-' :: str "ounce")) (cardinalDashOut (str "five") (str "ounce")) hmem.1⟩

end NemoMeasure

namespace NemoMeasure

/-- C5: the optional per-unit suffix rewrites the division marker to the
word per, looks the trailing unit up through the singular lexicon rule
only, appears at most once, discards any whitespace around the marker
(the output does not depend on it) and separates with single non-breaking
spaces, so the units string ends in per u2. -/
theorem C5_per_unit_suffix (env : Collab) (u nu u2 nu2 w1 w2 : Str)
    (hnu : nu ∈ env.measurements u) (hnu2 : nu2 ∈ env.measurements u2)
    (hw1 : ∀ c ∈ w1, isSpaceChar c) (hw2 : ∀ c ∈ w2, isSpaceChar c) :
    (unitsField (cspStr (env.singularToPlural nu) ++ (nbsp :: perOut (cspStr nu2))), ([] : Str))
        ∈ unit_plural env (u ++ (w1 ++ (str "/" ++ (w2 ++ u2))))
    ∧ (∀ o r s : Str, (o, r) ∈ graph_unit2 env s →
        ∃ w pre nu', (∀ c ∈ w, isSpaceChar c) ∧ nu' ∈ env.measurements pre ∧
          s = '/' :: (w ++ (pre ++ r)) ∧ o = perOut (cspStr nu'))
    ∧ (∀ o r s : Str, (o, r) ∈ optional_graph_unit2 env s →
        (o = [] ∧ r = s) ∨
        ∃ w s₂ o₂, (∀ c ∈ w, isSpaceChar c) ∧ s = w ++ s₂ ∧
          (o₂, r) ∈ graph_unit2 env s₂ ∧ o = nbsp :: o₂)
    ∧ (∃ pre, unitsField (cspStr (env.singularToPlural nu) ++ (nbsp :: perOut (cspStr nu2)))
        = pre ++ (str "per" ++ ([nbsp] ++ (cspStr nu2 ++ str "\"")))) := by
  refine ⟨?_, ?_, ?_, ?_⟩
  · refine mem_unit_plural.mpr
      ⟨cspStr (env.singularToPlural nu) ++ (nbsp :: perOut (cspStr nu2)), ?_, rfl⟩
    refine mem_unit_plural_core.mpr (Or.inl
      ⟨cspStr (env.singularToPlural nu), nbsp :: perOut (cspStr nu2),
        w1 ++ (str "/" ++ (w2 ++ u2)),
        mem_graph_unit_plural.mpr ⟨u, nu, hnu, rfl, rfl⟩, ?_, rfl⟩)
    refine mem_optional_graph_unit2.mpr (Or.inr
      ⟨w1, str "/" ++ (w2 ++ u2), perOut (cspStr nu2), hw1, rfl, ?_, rfl⟩)
    exact mem_graph_unit2.mpr ⟨w2, u2, nu2, hw2, hnu2, by simp [str], rfl⟩
  · intro o r s h
    exact mem_graph_unit2.mp h
  · intro o r s h
    exact mem_optional_graph_unit2.mp h
  · exact ⟨str "units: \"" ++ (cspStr (env.singularToPlural nu) ++ [nbsp]),
      by simp [unitsField, perOut, List.append_assoc]⟩

/-- C5 witness: the per-unit suffix theorem instantiated at the unit part
kg /hour with surrounding whitespace over the sample collaborators. -/
theorem C5_per_unit_suffix_witness :
    (str "kilogram" ∈ sampleEnv.measurements (str "kg"))
    ∧ (∀ c ∈ str " ", isSpaceChar c)
    ∧ (unitsField (cspStr (sampleEnv.singularToPlural (str "kilogram"))
          ++ (nbsp :: perOut (cspStr (str "hour")))), ([] : Str))
        ∈ unit_plural sampleEnv (str "kg" ++ (str " " ++ (str "/" ++ (str " " ++ str "hour"))))
    ∧ (∃ pre, unitsField (cspStr (sampleEnv.singularToPlural (str "kilogram"))
          ++ (nbsp :: perOut (cspStr (str "hour"))))
        = pre ++ (str "per" ++ ([nbsp] ++ (cspStr (str "hour") ++ str "\"")))) := by
  have h := C5_per_unit_suffix sampleEnv (str "kg") (str "kilogram") (str "hour") (str "hour")
    (str " ") (str " ") (by decide) (by decide) (by decide) (by decide)
  exact ⟨by decide, by decide, h.1, h.2.2.2⟩

end NemoMeasure

namespace NemoMeasure

theorem minusOne_subset {f : Str → List Str} {pre w : Str} (h : w ∈ minusOne f pre) :
    w ∈ f pre := by
  by_cases h1 : pre = str "1"
  · simp [minusOne, h1] at h
  · simpa [minusOne, h1] using h

/-- C8: matching is a pure function of the grammar parameters and the
input, so re-matching a fixed input in deterministic mode always yields
the same result, and the deterministic match yields at most one
candidate. -/
theorem C8_deterministic_rematch :
    ∀ (env : Collab) (s : Str),
      matchDet env s = matchDet env s ∧ (matchDet env s).toList.length ≤ 1 := by
  intro env s
  refine ⟨rfl, ?_⟩
  cases matchDet env s <;> simp

/-- C3: in every recognized plain cardinal or decimal measure the
negative field equals negative true exactly when the input begins with a
leading dash (given that the numeric collaborator grammars accept neither
an empty span nor a span starting with a dash), the field is absent
(empty output, never a false value) otherwise, and the sign rule consumes
at most one character. -/
theorem C3_negative_marker (env : Collab) (det : Bool)
    (hcard0 : cardinalGraphEff env det [] = [])
    (hcardneg : ∀ t, cardinalGraphEff env det ('-' :: t) = [])
    (hdec0 : env.decimal_final_wo_negative [] = [])
    (hdecneg : ∀ t, env.decimal_final_wo_negative ('-' :: t) = []) :
    (∀ s o, (o ∈ fullMatches (subgraph_cardinal env det) s ∨
             o ∈ fullMatches (subgraph_decimal env) s) →
      ∃ negO body,
        (o = str "cardinal \x7b " ++ (negO ++ body) ∨
         o = str "decimal \x7b " ++ (negO ++ body))
        ∧ (negO = negTrue ∨ negO = [])
        ∧ (negO = negTrue ↔ s.head? = some '-'))
    ∧ (∀ s o r, (o, r) ∈ optional_graph_negative s →
        s.length ≤ r.length + 1 ∧ (o = negTrue ∨ o = [])) := by
  constructor
  · intro s o h
    rcases h with h | h
    · rcases mem_subgraph_cardinal.mp (mem_fullMatches.mp h) with h | h
      · obtain ⟨negO, s₁, pre, w, ws, s₂, x, hneg, hw, hws, hs1, hx, ho⟩ :=
          mem_subgraph_cardinal_plural.mp h
        refine ⟨negO, str "integer: \"" ++ (w ++ (str "\"" ++ (str " \x7d " ++ x))),
          Or.inl (by simp [ho, cardinalBlock, List.append_assoc]), ?_, ?_⟩
        · rcases hneg with ⟨hne, _⟩ | ⟨hne, _⟩
          · exact Or.inl hne
          · exact Or.inr hne
        · rcases hneg with ⟨hne, hs⟩ | ⟨hne, hss⟩
          · exact ⟨fun _ => by rw [hs]; rfl, fun _ => hne⟩
          · subst hne
            constructor
            · intro habs
              exact absurd habs.symm (by decide)
            · intro hhead
              exfalso
              subst hss
              subst hs1
              cases pre with
              | nil =>
                have := minusOne_subset hw
                rw [hcard0] at this
                exact absurd this (by simp)
              | cons p pre' =>
                have hp : p = '-' := by
                  simpa using hhead
                subst hp
                have := minusOne_subset hw
                rw [hcardneg] at this
                exact absurd this (by simp)
      · obtain ⟨negO, s₁, ws, s₂, x, hneg, hws, hs1, hx, ho⟩ :=
          mem_subgraph_cardinal_singular.mp h
        refine ⟨negO, str "integer: \"" ++ (str "one" ++ (str "\"" ++ (str " \x7d " ++ x))),
          Or.inl (by simp [ho, cardinalBlock, List.append_assoc]), ?_, ?_⟩
        · rcases hneg with ⟨hne, _⟩ | ⟨hne, _⟩
          · exact Or.inl hne
          · exact Or.inr hne
        · rcases hneg with ⟨hne, hs⟩ | ⟨hne, hss⟩
          · exact ⟨fun _ => by rw [hs]; rfl, fun _ => hne⟩
          · subst hne
            constructor
            · intro habs
              exact absurd habs.symm (by decide)
            · intro hhead
              exfalso
              subst hss
              rw [hs1] at hhead
              simp at hhead
    · obtain ⟨negO, s₁, pre, w, ws, s₂, x, hneg, hw, hws, hs1, hx, ho⟩ :=
        mem_subgraph_decimal.mp (mem_fullMatches.mp h)
      refine ⟨negO, w ++ (str " \x7d " ++ x),
        Or.inr (by simp [ho, decimalBlock, List.append_assoc]), ?_, ?_⟩
      · rcases hneg with ⟨hne, _⟩ | ⟨hne, _⟩
        · exact Or.inl hne
        · exact Or.inr hne
      · rcases hneg with ⟨hne, hs⟩ | ⟨hne, hss⟩
        · exact ⟨fun _ => by rw [hs]; rfl, fun _ => hne⟩
        · subst hne
          constructor
          · intro habs
            exact absurd habs.symm (by decide)
          · intro hhead
            exfalso
            subst hss
            subst hs1
            cases pre with
            | nil =>
              rw [hdec0] at hw
              exact absurd hw (by simp)
            | cons p pre' =>
              have hp : p = '-' := by
                simpa using hhead
              subst hp
              rw [hdecneg] at hw
              exact absurd hw (by simp)
  · intro s o r h
    rcases optional_graph_negative_cases.mp h with ⟨ho, hs⟩ | ⟨ho, hr⟩
    · subst hs
      exact ⟨by simp, Or.inl ho⟩
    · subst hr
      exact ⟨by omega, Or.inr ho⟩

/-- C3 witness: the negative-marker theorem instantiated at -12kg over
the sample collaborators. -/
theorem C3_negative_marker_witness :
    (cardinalGraphEff sampleEnv true [] = [])
    ∧ (∃ negO body,
        (str "cardinal \x7b negative: \"true\" integer: \"twelve\" \x7d units: \"kilograms\""
            = str "cardinal \x7b " ++ (negO ++ body) ∨
         str "cardinal \x7b negative: \"true\" integer: \"twelve\" \x7d units: \"kilograms\""
            = str "decimal \x7b " ++ (negO ++ body))
        ∧ (negO = negTrue ∨ negO = [])
        ∧ (negO = negTrue ↔ (str "-12kg").head? = some '-')) := by
  have h := C3_negative_marker sampleEnv true (by decide)
    (by intro t; simp [cardinalGraphEff, sampleEnv, sampleCardinal, str]) (by decide)
    (by intro t; simp [sampleEnv, sampleDecimal, str])
  exact ⟨by decide, h.1 (str "-12kg") _ (Or.inl (by decide))⟩

end NemoMeasure

namespace NemoMeasure

theorem cspStr_ne_nil {nu : Str} (h : nu ≠ []) : cspStr nu ≠ [] := by
  cases nu with
  | nil => exact absurd rfl h
  | cons c cs => simp [cspStr]

theorem perOut_ne_nil (x : Str) : perOut x ≠ [] := by
  simp [perOut, str]

theorem unit_plural_content_ne {env : Collab} {x r s : Str}
    (hlexne : ∀ pre nu, nu ∈ env.measurements pre → nu ≠ [])
    (hplne : ∀ nu, nu ≠ [] → env.singularToPlural nu ≠ [])
    (h : (x, r) ∈ unit_plural env s) :
    ∃ uc, x = unitsField uc ∧ uc ≠ [] := by
  obtain ⟨uc, hcore, rfl⟩ := mem_unit_plural.mp h
  refine ⟨uc, rfl, ?_⟩
  rcases mem_unit_plural_core.mp hcore with ⟨xu, xo, s₂, hgu, _, rfl⟩ | hgu2
  · obtain ⟨pre, nu, hnu, _, rfl⟩ := mem_graph_unit_plural.mp hgu
    have h1 : env.singularToPlural nu ≠ [] := hplne nu (hlexne pre nu hnu)
    have h2 : cspStr (env.singularToPlural nu) ≠ [] := cspStr_ne_nil h1
    simp only [ne_eq, List.append_eq_nil]
    intro hc
    exact h2 hc.1
  · obtain ⟨w, pre, nu, _, _, _, rfl⟩ := mem_graph_unit2.mp hgu2
    exact perOut_ne_nil _

theorem unit_singular_content_ne {env : Collab} {x r s : Str}
    (hlexne : ∀ pre nu, nu ∈ env.measurements pre → nu ≠ [])
    (h : (x, r) ∈ unit_singular env s) :
    ∃ uc, x = unitsField uc ∧ uc ≠ [] := by
  obtain ⟨uc, hcore, rfl⟩ := mem_unit_singular.mp h
  refine ⟨uc, rfl, ?_⟩
  rcases mem_unit_singular_core.mp hcore with ⟨xu, xo, s₂, hgu, _, rfl⟩ | hgu2
  · obtain ⟨pre, nu, hnu, _, rfl⟩ := mem_graph_unit.mp hgu
    have h2 : cspStr nu ≠ [] := cspStr_ne_nil (hlexne pre nu hnu)
    simp only [ne_eq, List.append_eq_nil]
    intro hc
    exact h2 hc.1
  · obtain ⟨w, pre, nu, _, _, _, rfl⟩ := mem_graph_unit2.mp hgu2
    exact perOut_ne_nil _

/-- C7: every annotation produced by any branch of the composed rule has
a units field with non-empty content, provided the lexicon only maps to
non-empty names and pluralization preserves non-emptiness. -/
theorem C7_units_nonempty (env : Collab) (det : Bool)
    (hlexne : ∀ pre nu, nu ∈ env.measurements pre → nu ≠ [])
    (hplne : ∀ nu, nu ≠ [] → env.singularToPlural nu ≠ []) :
    ∀ s o, o ∈ fullMatches (final_graph env det) s →
      ∃ p uc q, o = p ++ (str "units: \"" ++ (uc ++ (str "\"" ++ q))) ∧ uc ≠ [] := by
  have hsplit1 : str "\" \x7d units: \"" = str "\" \x7d " ++ str "units: \"" := by decide
  have hsplit2 : str " \x7d units: \"" = str " \x7d " ++ str "units: \"" := by decide
  intro s o h
  obtain ⟨x, hcase, rfl⟩ := mem_final_graph.mp (mem_fullMatches.mp h)
  rcases hcase with h | h | h | h | h | h
  · obtain ⟨negO, s₁, pre, w, ws, s₂, x', hneg, hw, hws, hs1, hx, rfl⟩ :=
      mem_subgraph_decimal.mp h
    obtain ⟨uc, rfl, hne⟩ := unit_plural_content_ne hlexne hplne hx
    exact ⟨str "measure \x7b " ++ decimalBlock negO w, uc, str " \x7d", by
      simp [measureTok, unitsField, List.append_assoc], hne⟩
  · rcases mem_subgraph_cardinal.mp h with h | h
    · obtain ⟨negO, s₁, pre, w, ws, s₂, x', hneg, hw, hws, hs1, hx, rfl⟩ :=
        mem_subgraph_cardinal_plural.mp h
      obtain ⟨uc, rfl, hne⟩ := unit_plural_content_ne hlexne hplne hx
      exact ⟨str "measure \x7b " ++ cardinalBlock negO w, uc, str " \x7d", by
        simp [measureTok, unitsField, List.append_assoc], hne⟩
    · obtain ⟨negO, s₁, ws, s₂, x', hneg, hws, hs1, hx, rfl⟩ :=
        mem_subgraph_cardinal_singular.mp h
      obtain ⟨uc, rfl, hne⟩ := unit_singular_content_ne hlexne hx
      exact ⟨str "measure \x7b " ++ cardinalBlock negO (str "one"), uc, str " \x7d", by
        simp [measureTok, unitsField, List.append_assoc], hne⟩
  · obtain ⟨pre, w, a, hw, ha1, ha2, hs, rfl⟩ := mem_cardinal_dash_alpha.mp h
    exact ⟨str "measure \x7b " ++ (str "cardinal \x7b integer: \"" ++ (w ++ str "\" \x7d ")),
      a, str " \x7d", by
        simp [measureTok, cardinalDashOut, hsplit1, List.append_assoc], ha1⟩
  · obtain ⟨a, pre, w, ha1, ha2, hw, hs, rfl⟩ := mem_alpha_dash_cardinal.mp h
    exact ⟨str "measure \x7b ", a,
      str " cardinal \x7b integer: \"" ++ (w ++ (str "\" \x7d preserve_order: true" ++ str " \x7d")),
      by simp [measureTok, alphaDashCardinalOut, List.append_assoc], ha1⟩
  · obtain ⟨pre, w, a, hw, ha1, ha2, hs, rfl⟩ := mem_decimal_dash_alpha.mp h
    exact ⟨str "measure \x7b " ++ (str "decimal \x7b " ++ (w ++ str " \x7d ")),
      a, str " \x7d", by
        simp [measureTok, decimalDashOut, hsplit2, List.append_assoc], ha1⟩
  · obtain ⟨a, pre, w, ha1, ha2, hw, hs, rfl⟩ := mem_alpha_dash_decimal.mp h
    exact ⟨str "measure \x7b ", a,
      str " decimal \x7b " ++ (w ++ (str " \x7d preserve_order: true" ++ str " \x7d")),
      by simp [measureTok, alphaDashDecimalOut, List.append_assoc], ha1⟩

/-- C7 witness: the non-empty-units theorem instantiated at -12kg over
the sample collaborators. -/
theorem C7_units_nonempty_witness :
    (∃ p uc q,
      str "measure \x7b cardinal \x7b negative: \"true\" integer: \"twelve\" \x7d units: \"kilograms\" \x7d"
        = p ++ (str "units: \"" ++ (uc ++ (str "\"" ++ q))) ∧ uc ≠ []) := by
  refine C7_units_nonempty sampleEnv true ?_ ?_ (str "-12kg") _ (by decide)
  · intro pre nu h
    by_cases h1 : pre = str "kg"
    · subst h1
      simp [sampleEnv, sampleUnits, str] at h
      simp [h, str]
    · by_cases h2 : pre = str "hour"
      · subst h2
        simp [sampleEnv, sampleUnits, str] at h
        simp [h, str]
      · simp [sampleEnv, sampleUnits, h1, h2] at h
  · intro nu hne
    by_cases h1 : nu = str "kilogram"
    · simp [sampleEnv, samplePlural, h1, str]
    · by_cases h2 : nu = str "hour"
      · simp [sampleEnv, samplePlural, h1, h2, str]
      · simpa [sampleEnv, samplePlural, h1, h2] using hne

end NemoMeasure

namespace NemoMeasure

theorem numchar_not_special {c : Char} (h : c.isDigit = true ∨ c = '.') :
    isSpaceChar c = false ∧ c ≠ '-' ∧ c ≠ '/' := by
  rcases h with h | rfl
  · refine ⟨?_, ?_, ?_⟩
    · cases hs : isSpaceChar c
      · rfl
      · exfalso
        simp only [isSpaceChar, Bool.or_eq_true, decide_eq_true_eq] at hs
        rcases hs with ((((rfl | rfl) | rfl) | rfl) | rfl) <;> exact absurd h (by decide)
    · rintro rfl
      exact absurd h (by decide)
    · rintro rfl
      exact absurd h (by decide)
  · exact ⟨by decide, by decide, by decide⟩

theorem unit_rule_head_shape {env : Collab} {u x r s : Str}
    (hlexpin : ∀ c, env.measurements c ≠ [] → c = u)
    (h : (x, r) ∈ unit_plural env s ∨ (x, r) ∈ unit_singular env s) :
    (∃ t, s = u ++ t) ∨ (∃ t, s = '/' :: t) := by
  rcases h with h | h
  · obtain ⟨uc, hcore, _⟩ := mem_unit_plural.mp h
    rcases mem_unit_plural_core.mp hcore with ⟨xu, xo, s₂, hgu, _, _⟩ | hgu2
    · obtain ⟨pre, nu, hnu, hs, _⟩ := mem_graph_unit_plural.mp hgu
      have hpre : pre = u := hlexpin pre (List.ne_nil_of_mem hnu)
      subst hpre
      exact Or.inl ⟨s₂, hs⟩
    · obtain ⟨w, pre, nu, _, _, hs, _⟩ := mem_graph_unit2.mp hgu2
      exact Or.inr ⟨_, hs⟩
  · obtain ⟨uc, hcore, _⟩ := mem_unit_singular.mp h
    rcases mem_unit_singular_core.mp hcore with ⟨xu, xo, s₂, hgu, _, _⟩ | hgu2
    · obtain ⟨pre, nu, hnu, hs, _⟩ := mem_graph_unit.mp hgu
      have hpre : pre = u := hlexpin pre (List.ne_nil_of_mem hnu)
      subst hpre
      exact Or.inl ⟨s₂, hs⟩
    · obtain ⟨w, pre, nu, _, _, hs, _⟩ := mem_graph_unit2.mp hgu2
      exact Or.inr ⟨_, hs⟩

theorem unit_plural_full_pinned {env : Collab} {u x : Str}
    (hlexpin : ∀ c, env.measurements c ≠ [] → c = u) :
    (x, ([] : Str)) ∈ unit_plural env u ↔
      ∃ nu, nu ∈ env.measurements u ∧ x = unitsField (cspStr (env.singularToPlural nu)) := by
  constructor
  · intro h
    obtain ⟨uc, hcore, rfl⟩ := mem_unit_plural.mp h
    rcases mem_unit_plural_core.mp hcore with ⟨xu, xo, s₂, hgu, hopt, rfl⟩ | hgu2
    · obtain ⟨pre, nu, hnu, hs, rfl⟩ := mem_graph_unit_plural.mp hgu
      have hpre : pre = u := hlexpin pre (List.ne_nil_of_mem hnu)
      subst hpre
      have hs2 : s₂ = [] := List.self_eq_append_right.mp hs
      subst hs2
      rcases mem_optional_graph_unit2.mp hopt with ⟨rfl, _⟩ | ⟨w, s₃, o₂, _, hws, hgu2, _⟩
      · exact ⟨nu, hnu, by simp⟩
      · obtain ⟨hw, hs3⟩ := (List.append_eq_nil).mp hws.symm
        subst hs3
        obtain ⟨_, _, _, _, _, habs, _⟩ := mem_graph_unit2.mp hgu2
        exact absurd habs (by simp)
    · obtain ⟨w, pre, nu, _, hnu, hs, _⟩ := mem_graph_unit2.mp hgu2
      have hpre : pre = u := hlexpin pre (List.ne_nil_of_mem hnu)
      subst hpre
      exfalso
      have := congrArg List.length hs
      simp at this
      omega
  · rintro ⟨nu, hnu, rfl⟩
    exact unit_plural_primary hnu

theorem unit_singular_full_pinned {env : Collab} {u x : Str}
    (hlexpin : ∀ c, env.measurements c ≠ [] → c = u) :
    (x, ([] : Str)) ∈ unit_singular env u ↔
      ∃ nu, nu ∈ env.measurements u ∧ x = unitsField (cspStr nu) := by
  constructor
  · intro h
    obtain ⟨uc, hcore, rfl⟩ := mem_unit_singular.mp h
    rcases mem_unit_singular_core.mp hcore with ⟨xu, xo, s₂, hgu, hopt, rfl⟩ | hgu2
    · obtain ⟨pre, nu, hnu, hs, rfl⟩ := mem_graph_unit.mp hgu
      have hpre : pre = u := hlexpin pre (List.ne_nil_of_mem hnu)
      subst hpre
      have hs2 : s₂ = [] := List.self_eq_append_right.mp hs
      subst hs2
      rcases mem_optional_graph_unit2.mp hopt with ⟨rfl, _⟩ | ⟨w, s₃, o₂, _, hws, hgu2, _⟩
      · exact ⟨nu, hnu, by simp⟩
      · obtain ⟨hw, hs3⟩ := (List.append_eq_nil).mp hws.symm
        subst hs3
        obtain ⟨_, _, _, _, _, habs, _⟩ := mem_graph_unit2.mp hgu2
        exact absurd habs (by simp)
    · obtain ⟨w, pre, nu, _, hnu, hs, _⟩ := mem_graph_unit2.mp hgu2
      have hpre : pre = u := hlexpin pre (List.ne_nil_of_mem hnu)
      subst hpre
      exfalso
      have := congrArg List.length hs
      simp at this
      omega
  · rintro ⟨nu, hnu, rfl⟩
    exact unit_singular_primary hnu

end NemoMeasure

namespace NemoMeasure

theorem mid_split {env : Collab} {u mid ws' s₂ x r : Str}
    (hlexpin : ∀ c, env.measurements c ≠ [] → c = u)
    (hu0 : u ≠ []) (hu : ∀ c ∈ u, isSpaceChar c = false ∧ c.isDigit = false)
    (hmid : ∀ c ∈ mid, isSpaceChar c) (hws' : ∀ c ∈ ws', isSpaceChar c)
    (hmu : mid ++ u = ws' ++ s₂)
    (hx : (x, r) ∈ unit_plural env s₂ ∨ (x, r) ∈ unit_singular env s₂) :
    s₂ = u := by
  rcases List.append_eq_append_iff.mp hmu with ⟨t, hws't, hut⟩ | ⟨t, hmidt, hs2t⟩
  · have ht : t = [] := by
      cases t with
      | nil => rfl
      | cons c t₂ =>
        exfalso
        have hcu : c ∈ u := by rw [hut]; simp
        have hcw : c ∈ ws' := by rw [hws't]; simp
        have h1 := (hu c hcu).1
        have h2 := hws' c hcw
        rw [h1] at h2
        exact absurd h2 (by simp)
    subst ht
    simpa using hut.symm
  · cases t with
    | nil => simpa using hs2t
    | cons c t₂ =>
      exfalso
      have hcmid : c ∈ mid := by rw [hmidt]; simp
      have hcsp := hmid c hcmid
      rcases unit_rule_head_shape hlexpin hx with ⟨t', ht'⟩ | ⟨t', ht'⟩
      · rw [hs2t] at ht'
        cases u with
        | nil => exact hu0 rfl
        | cons u₀ u' =>
          have hc : c = u₀ := by
            have := congrArg List.head? ht'
            simpa using this
          have := (hu u₀ (by simp)).1
          rw [← hc] at this
          rw [this] at hcsp
          exact absurd hcsp (by simp)
      · rw [hs2t] at ht'
        have hc : c = '/' := by
          have := congrArg List.head? ht'
          simpa using this
        rw [hc] at hcsp
        exact absurd hcsp (by decide)

theorem subgraph_cardinal_pinned_char (env : Collab) (det : Bool) (mid : Str) {n u o : Str}
    (hcardpin : ∀ c, cardinalGraphEff env det c ≠ [] → c = n)
    (hn0 : n ≠ []) (hn : ∀ c ∈ n, c.isDigit)
    (hlexpin : ∀ c, env.measurements c ≠ [] → c = u)
    (hu0 : u ≠ []) (hu : ∀ c ∈ u, isSpaceChar c = false ∧ c.isDigit = false)
    (hmid : ∀ c ∈ mid, isSpaceChar c) :
    o ∈ fullMatches (subgraph_cardinal env det) (n ++ (mid ++ u)) ↔
      (∃ w nu, w ∈ minusOne (cardinalGraphEff env det) n ∧ nu ∈ env.measurements u ∧
        o = cardinalBlock [] w ++ unitsField (cspStr (env.singularToPlural nu)))
      ∨ (n = str "1" ∧ ∃ nu, nu ∈ env.measurements u ∧
        o = cardinalBlock [] (str "one") ++ unitsField (cspStr nu)) := by
  constructor
  · intro h
    rcases mem_subgraph_cardinal.mp (mem_fullMatches.mp h) with h | h
    · obtain ⟨negO, s₁, pre, w, ws', s₂, x, hneg, hw, hws', hs1, hx, rfl⟩ :=
        mem_subgraph_cardinal_plural.mp h
      rcases hneg with ⟨hne, hsA⟩ | ⟨hne, hss⟩
      · exfalso
        cases n with
        | nil => exact hn0 rfl
        | cons c t =>
          have hc : c = '-' := by
            have := congrArg List.head? hsA
            simpa using this
          have := hn c (by simp)
          rw [hc] at this
          exact absurd this (by decide)
      · subst hne
        have hpre : pre = n := hcardpin pre (List.ne_nil_of_mem (minusOne_subset hw))
        subst hpre
        have hX : pre ++ (mid ++ u) = pre ++ (ws' ++ s₂) := hss.symm.trans hs1
        have hmu : mid ++ u = ws' ++ s₂ := List.append_cancel_left hX
        have hs2 : s₂ = u := mid_split hlexpin hu0 hu hmid hws' hmu (Or.inl hx)
        subst hs2
        obtain ⟨nu, hnu, rfl⟩ := (unit_plural_full_pinned hlexpin).mp hx
        exact Or.inl ⟨w, nu, hw, hnu, rfl⟩
    · obtain ⟨negO, s₁, ws', s₂, x, hneg, hws', hs1, hx, rfl⟩ :=
        mem_subgraph_cardinal_singular.mp h
      rcases hneg with ⟨hne, hsA⟩ | ⟨hne, hss⟩
      · exfalso
        cases n with
        | nil => exact hn0 rfl
        | cons c t =>
          have hc : c = '-' := by
            have := congrArg List.head? hsA
            simpa using this
          have := hn c (by simp)
          rw [hc] at this
          exact absurd this (by decide)
      · subst hne
        have hX : n ++ (mid ++ u) = '1' :: (ws' ++ s₂) := hss.symm.trans hs1
        cases n with
        | nil => exact absurd rfl hn0
        | cons c n' =>
          have hc : c = '1' := by
            have := congrArg List.head? hX
            simpa using this
          subst hc
          have hrest : n' ++ (mid ++ u) = ws' ++ s₂ := by
            have := hX
            simp only [List.cons_append] at this
            exact (List.cons.injEq .. ▸ this).2
          have hn'nil : n' = [] := by
            cases n' with
            | nil => rfl
            | cons c₂ n'' =>
              exfalso
              have hc₂ : c₂.isDigit := hn c₂ (by simp)
              have hspec := numchar_not_special (Or.inl hc₂)
              cases ws' with
              | nil =>
                simp only [List.nil_append] at hrest
                rcases unit_rule_head_shape hlexpin (Or.inr hx) with ⟨t', ht'⟩ | ⟨t', ht'⟩
                · rw [← hrest] at ht'
                  cases u with
                  | nil => exact hu0 rfl
                  | cons u₀ u' =>
                    have hcu : c₂ = u₀ := by
                      have := congrArg List.head? ht'
                      simpa using this
                    have := (hu u₀ (by simp)).2
                    rw [← hcu] at this
                    rw [this] at hc₂
                    exact absurd hc₂ (by simp)
                · rw [← hrest] at ht'
                  have hcs : c₂ = '/' := by
                    have := congrArg List.head? ht'
                    simpa using this
                  exact hspec.2.2 hcs
              | cons w₀ ws'' =>
                have hcw : c₂ = w₀ := by
                  have := congrArg List.head? hrest
                  simpa using this
                have := hws' w₀ (by simp)
                rw [← hcw] at this
                rw [hspec.1] at this
                exact absurd this (by simp)
          subst hn'nil
          simp only [List.nil_append] at hrest
          have hs2 : s₂ = u := mid_split hlexpin hu0 hu hmid hws' hrest (Or.inr hx)
          subst hs2
          obtain ⟨nu, hnu, rfl⟩ := (unit_singular_full_pinned hlexpin).mp hx
          exact Or.inr ⟨rfl, nu, hnu, rfl⟩
  · rintro (⟨w, nu, hw, hnu, rfl⟩ | ⟨hn1, nu, hnu, rfl⟩)
    · exact mem_fullMatches.mpr (mem_subgraph_cardinal.mpr (Or.inl
        (mem_subgraph_cardinal_plural.mpr ⟨[], n ++ (mid ++ u), n, w, mid, u, _,
          Or.inr ⟨rfl, rfl⟩, hw, hmid, rfl, unit_plural_primary hnu, rfl⟩)))
    · subst hn1
      exact mem_fullMatches.mpr (mem_subgraph_cardinal.mpr (Or.inr
        (mem_subgraph_cardinal_singular.mpr ⟨[], str "1" ++ (mid ++ u), mid, u, _,
          Or.inr ⟨rfl, rfl⟩, hmid, by simp [str], unit_singular_primary hnu, rfl⟩)))

end NemoMeasure

namespace NemoMeasure

theorem subgraph_decimal_pinned_char (env : Collab) (mid : Str) {d u o : Str}
    (hdecpin : ∀ c, env.decimal_final_wo_negative c ≠ [] → c = d)
    (hd0 : d ≠ []) (hd : ∀ c ∈ d, c.isDigit = true ∨ c = '.')
    (hlexpin : ∀ c, env.measurements c ≠ [] → c = u)
    (hu0 : u ≠ []) (hu : ∀ c ∈ u, isSpaceChar c = false ∧ c.isDigit = false)
    (hmid : ∀ c ∈ mid, isSpaceChar c) :
    o ∈ fullMatches (subgraph_decimal env) (d ++ (mid ++ u)) ↔
      ∃ w nu, w ∈ env.decimal_final_wo_negative d ∧ nu ∈ env.measurements u ∧
        o = decimalBlock [] w ++ unitsField (cspStr (env.singularToPlural nu)) := by
  constructor
  · intro h
    obtain ⟨negO, s₁, pre, w, ws', s₂, x, hneg, hw, hws', hs1, hx, rfl⟩ :=
      mem_subgraph_decimal.mp (mem_fullMatches.mp h)
    rcases hneg with ⟨hne, hsA⟩ | ⟨hne, hss⟩
    · exfalso
      cases d with
      | nil => exact hd0 rfl
      | cons c t =>
        have hc : c = '-' := by
          have := congrArg List.head? hsA
          simpa using this
        exact (numchar_not_special (hd c (by simp))).2.1 hc
    · subst hne
      have hpre : pre = d := hdecpin pre (List.ne_nil_of_mem hw)
      subst hpre
      have hX : pre ++ (mid ++ u) = pre ++ (ws' ++ s₂) := hss.symm.trans hs1
      have hmu : mid ++ u = ws' ++ s₂ := List.append_cancel_left hX
      have hs2 : s₂ = u := mid_split hlexpin hu0 hu hmid hws' hmu (Or.inl hx)
      subst hs2
      obtain ⟨nu, hnu, rfl⟩ := (unit_plural_full_pinned hlexpin).mp hx
      exact ⟨w, nu, hw, hnu, rfl⟩
  · rintro ⟨w, nu, hw, hnu, rfl⟩
    exact mem_fullMatches.mpr (mem_subgraph_decimal.mpr ⟨[], d ++ (mid ++ u), d, w, mid, u, _,
      Or.inr ⟨rfl, rfl⟩, hw, hmid, rfl, unit_plural_primary hnu, rfl⟩)

/-- C10: in the plain cardinal and decimal branches any whitespace
between the numeric span and the unit is deleted before the unit is
matched, so inputs with and without the intervening whitespace have
exactly the same recognized annotations (stated for collaborator grammars
pinned to the spans n, d and u in question). -/
theorem C10_whitespace_collapse (env : Collab) (det : Bool) (n d u ws : Str)
    (hcardpin : ∀ c, cardinalGraphEff env det c ≠ [] → c = n)
    (hn0 : n ≠ []) (hn : ∀ c ∈ n, c.isDigit)
    (hdecpin : ∀ c, env.decimal_final_wo_negative c ≠ [] → c = d)
    (hd0 : d ≠ []) (hd : ∀ c ∈ d, c.isDigit = true ∨ c = '.')
    (hlexpin : ∀ c, env.measurements c ≠ [] → c = u)
    (hu0 : u ≠ []) (hu : ∀ c ∈ u, isSpaceChar c = false ∧ c.isDigit = false)
    (hws : ∀ c ∈ ws, isSpaceChar c) :
    (∀ o, o ∈ fullMatches (subgraph_cardinal env det) (n ++ (ws ++ u)) ↔
          o ∈ fullMatches (subgraph_cardinal env det) (n ++ u))
    ∧ (∀ o, o ∈ fullMatches (subgraph_decimal env) (d ++ (ws ++ u)) ↔
            o ∈ fullMatches (subgraph_decimal env) (d ++ u)) := by
  constructor
  · intro o
    have h1 := @subgraph_cardinal_pinned_char env det ws n u o hcardpin hn0 hn hlexpin hu0 hu hws
    have h2 := @subgraph_cardinal_pinned_char env det [] n u o hcardpin hn0 hn hlexpin hu0 hu
      (by simp)
    simp only [List.nil_append] at h2
    exact h1.trans h2.symm
  · intro o
    have h1 := @subgraph_decimal_pinned_char env ws d u o hdecpin hd0 hd hlexpin hu0 hu hws
    have h2 := @subgraph_decimal_pinned_char env [] d u o hdecpin hd0 hd hlexpin hu0 hu
      (by simp)
    simp only [List.nil_append] at h2
    exact h1.trans h2.symm

end NemoMeasure

namespace NemoMeasure

/-- C10 witness: the whitespace-collapse theorem instantiated at the
inputs 12 kg versus 12kg and .5 kg versus .5kg over the pinned
collaborators. -/
theorem C10_whitespace_collapse_witness :
    (cardinalGraphEff pinnedEnv true (str "12") ≠ [])
    ∧ (str "cardinal \x7b integer: \"twelve\" \x7d units: \"kilograms\""
        ∈ fullMatches (subgraph_cardinal pinnedEnv true) (str "12" ++ (str " " ++ str "kg")) ↔
       str "cardinal \x7b integer: \"twelve\" \x7d units: \"kilograms\""
        ∈ fullMatches (subgraph_cardinal pinnedEnv true) (str "12" ++ str "kg"))
    ∧ (str "decimal \x7b fractional_part: \"five\" \x7d units: \"kilograms\""
        ∈ fullMatches (subgraph_decimal pinnedEnv) (str ".5" ++ (str " " ++ str "kg")) ↔
       str "decimal \x7b fractional_part: \"five\" \x7d units: \"kilograms\""
        ∈ fullMatches (subgraph_decimal pinnedEnv) (str ".5" ++ str "kg")) := by
  have h := C10_whitespace_collapse pinnedEnv true (str "12") (str ".5") (str "kg") (str " ")
    (by
      intro c h
      by_cases hc : c = str "12"
      · exact hc
      · exfalso
        apply h
        simp [cardinalGraphEff, pinnedEnv, onlyCard12, hc])
    (by decide) (by decide)
    (by
      intro c h
      by_cases hc : c = str ".5"
      · exact hc
      · exfalso
        apply h
        simp [pinnedEnv, sampleDecimal, hc])
    (by decide) (by decide)
    (by
      intro c h
      by_cases hc : c = str "kg"
      · exact hc
      · exfalso
        apply h
        simp [pinnedEnv, onlyUnitKg, hc])
    (by decide) (by decide) (by decide)
  exact ⟨by decide, h.1 _, h.2 _⟩

end NemoMeasure
